import Mathlib

/-!
Verification of the RESP byte-buffer / codec core of `ait_rredis_cli`.

Shallow embedding conventions:
* Rust `String` payloads are modelled as their UTF-8 byte sequences
  (`List Nat`, each element a byte value).  `String::from_utf8_lossy` is the
  identity on the byte level for the valid-UTF-8 strings the program can
  construct, and a parse (`parse::<usize>` etc.) applied to a lossy
  conversion succeeds exactly when the raw bytes spell a number, so number
  parsing is modelled directly on the raw bytes.
* `BytesBuffer` (src/byte_buffer.rs) is modelled with explicit cursors over
  a `List Nat` byte store.  Operations that can panic in Rust
  (`put_u8`, `put_u8_slice`) return `Option`; `none` models the panic.
* `RespType::decode` (src/redis_type.rs) is recursive through aggregate
  elements; it is modelled with an explicit fuel argument
  (`RespType.decodeGo`), and `RespType.decode` instantiates the fuel with
  `remaining + 1`, which is sufficient because every recursion level
  consumes at least the tag byte before descending, and a call with no
  remaining bytes returns `none` with the buffer unchanged in both the
  model and the source.
-/

namespace RRedis

/-- redis resp type default terminator, `b"\r\n"` (src/redis_type.rs). -/
def TERMINATOR : List Nat := [13, 10]

/-- One step of Rust's digit accumulation in `from_str`: all characters must
be ASCII digits, accumulating `acc * 10 + digit`. -/
def parseDigitsAux : List Nat → Nat → Option Nat
  | [], acc => some acc
  | c :: rest, acc =>
      if 48 ≤ c ∧ c ≤ 57 then parseDigitsAux rest (acc * 10 + (c - 48)) else none

/-- Parse a nonempty all-digit byte sequence (Rust rejects the empty string). -/
def parseDigits : List Nat → Option Nat
  | [] => none
  | l => parseDigitsAux l 0

/-- Rust `str::parse::<usize>` on the bytes of a (lossy-decoded) string:
optional leading `+`, then one or more ASCII digits, failing on overflow
past `usize::MAX` (64-bit). -/
def parseUsize (l : List Nat) : Option Nat :=
  let body := if l.head? = some 43 then parseDigits l.tail else parseDigits l
  match body with
  | some n => if n < 2 ^ 64 then some n else none
  | none => none

/-- Rust `str::parse::<isize>` (64-bit): optional sign, digits, range check. -/
def parseIsize (l : List Nat) : Option Int :=
  match l with
  | 45 :: rest =>
      match parseDigits rest with
      | some n => if n ≤ 2 ^ 63 then some (-(n : Int)) else none
      | none => none
  | 43 :: rest =>
      match parseDigits rest with
      | some n => if n < 2 ^ 63 then some (n : Int) else none
      | none => none
  | _ =>
      match parseDigits l with
      | some n => if n < 2 ^ 63 then some (n : Int) else none
      | none => none

/-- Fuelled decimal-digit production, `natDigitsAux fuel n`: the digits of
`n` (most significant first) as ASCII bytes, provided `fuel ≥ n`. -/
def natDigitsAux : Nat → Nat → List Nat
  | _, 0 => []
  | 0, _ + 1 => []
  | fuel + 1, n + 1 => natDigitsAux fuel ((n + 1) / 10) ++ [(n + 1) % 10 + 48]

/-- Rust's `usize::to_string` as ASCII bytes. -/
def natDigits (n : Nat) : List Nat :=
  if n = 0 then [48] else natDigitsAux n n

/-- `BytesBuffer` (src/byte_buffer.rs): read/write cursors over a
fixed-capacity byte store, with an optional rollback mark. -/
structure BytesBuffer where
  r_pos : Nat
  w_pos : Nat
  capacity : Nat
  mark : Option Nat
  bytes : List Nat
deriving DecidableEq, Repr

namespace BytesBuffer

/-- `BytesBuffer::new(capacity)`: zeroed store, both cursors at 0, no mark. -/
def new (capacity : Nat) : BytesBuffer :=
  ⟨0, 0, capacity, none, List.replicate capacity 0⟩

/-- The unread region `[r_pos, w_pos)` of the store. -/
def unread (b : BytesBuffer) : List Nat :=
  (b.bytes.take b.w_pos).drop b.r_pos

/-- `has_remaining`: `r_pos < w_pos`. -/
def has_remaining (b : BytesBuffer) : Bool :=
  b.r_pos < b.w_pos

/-- Modelled from the spec: `remaining_at_least(n)` / `has_remaining_at_least`
is called by the decoders in src/redis_type.rs but its implementation is not
among the sources; the spec (§4.1) describes it as a pure cursor comparison:
at least `n` unread bytes are available. -/
def has_remaining_at_least (b : BytesBuffer) (n : Nat) : Bool :=
  b.r_pos + n ≤ b.w_pos

/-- `mark()`: record `r_pos`, overwriting any prior mark. -/
def markOp (b : BytesBuffer) : BytesBuffer :=
  { b with mark := some b.r_pos }

/-- `reset()`: restore `r_pos` from the mark and clear it; no-op without one. -/
def resetOp (b : BytesBuffer) : BytesBuffer :=
  match b.mark with
  | some m => { b with r_pos := m, mark := none }
  | none => b

/-- `get_u8`: the byte at `r_pos`, advancing the read cursor. -/
def get_u8 (b : BytesBuffer) : Nat × BytesBuffer :=
  (b.bytes.getD b.r_pos 0, { b with r_pos := b.r_pos + 1 })

/-- `slice(offset, length)`: the store bytes `[offset, offset+length)`. -/
def listSlice (l : List Nat) (offset length : Nat) : List Nat :=
  (l.drop offset).take length

/-- `get_slice(length)`: `length` bytes from `r_pos`, advancing the cursor. -/
def get_slice (b : BytesBuffer) (length : Nat) : List Nat × BytesBuffer :=
  (listSlice b.bytes b.r_pos length, { b with r_pos := b.r_pos + length })

/-- `put_u8`: write one byte at `w_pos`; `none` models the Rust panic when
`w_pos` is outside the store (i.e. `w_pos ≥ capacity`). -/
def put_u8 (byte : Nat) (b : BytesBuffer) : Option BytesBuffer :=
  if b.w_pos < b.capacity then
    some { b with bytes := b.bytes.set b.w_pos byte, w_pos := b.w_pos + 1 }
  else none

/-- Overwrite `l` starting at index `i` with the bytes of `src`. -/
def writeAt : List Nat → Nat → List Nat → List Nat
  | l, _, [] => l
  | l, i, c :: cs => writeAt (l.set i c) (i + 1) cs

/-- `put_u8_slice`: copy a slice at `w_pos`; `none` models the Rust panic
when the slice does not fit below `capacity`. -/
def put_u8_slice (sl : List Nat) (b : BytesBuffer) : Option BytesBuffer :=
  if b.w_pos + sl.length ≤ b.capacity then
    some { b with bytes := writeAt b.bytes b.w_pos sl, w_pos := b.w_pos + sl.length }
  else none

/-- The scanning loop of `get_slice_until`: walk the unread bytes, matched
against the delimiter with a state counter (advance on match, reset to 0 and
count the byte on mismatch), stopping when the counter reaches the delimiter
length.  Returns the final absolute cursor, the byte count, and the final
counter state. -/
def scanLoop (untilD : List Nat) : List Nat → Nat → Nat → Nat → Nat × Nat × Nat
  | [], pos, count, st => (pos, count, st)
  | byte :: rest, pos, count, st =>
      let s := if untilD.getD st 0 = byte then (st + 1, count) else (0, count + 1)
      if s.1 = untilD.length then (pos + 1, s.2, s.1)
      else scanLoop untilD rest (pos + 1) s.2 s.1

/-- `get_slice_until` (src/byte_buffer.rs lines 81-109 give the scanning
algorithm; the `Option` result is modelled from the spec §4.1 `take_until`,
since the callers in src/redis_type.rs consume it as an `Option` while the
buffer source in src returns a bare slice): mark the entry position, scan
for the delimiter; on success return the counted slice (the mark stays set);
on exhaustion reset to the mark and signal incompleteness with `none`. -/
def get_slice_until (untilD : List Nat) (b : BytesBuffer) :
    Option (List Nat) × BytesBuffer :=
  let b0 := markOp b
  let old := b0.r_pos
  let r := scanLoop untilD (unread b0) b0.r_pos 0 0
  if r.2.2 = untilD.length then
    (some (listSlice b0.bytes old r.2.1), { b0 with r_pos := r.1 })
  else
    (none, resetOp { b0 with r_pos := r.1 })

/-- `compact()`: drop consumed bytes, shifting `[r_pos, w_pos)` to offset 0. -/
def compact (b : BytesBuffer) : BytesBuffer :=
  if b.r_pos = b.w_pos then { b with r_pos := 0, w_pos := 0 }
  else
    { b with
      bytes := writeAt b.bytes 0 (listSlice b.bytes b.r_pos (b.w_pos - b.r_pos)),
      w_pos := b.w_pos - b.r_pos, r_pos := 0 }

/-- `read_bytes` / `XTcpStream::read`: one socket read appends `chunk` at
`w_pos` and advances it; the transport never delivers more than the free
region `capacity - w_pos`, which theorems state as a hypothesis. -/
def fillBytes (chunk : List Nat) (b : BytesBuffer) : BytesBuffer :=
  { b with bytes := writeAt b.bytes b.w_pos chunk, w_pos := b.w_pos + chunk.length }

/-- `write_bytes`: drain `[r_pos, w_pos)` to the sink, then compact. -/
def write_bytes (b : BytesBuffer) : BytesBuffer :=
  compact { b with r_pos := b.w_pos }

/-- Modelled from the spec and the call site comment in
src/redis_client.rs ("Skip the error data and start fresh"): `skip_to_end`
is called by `read_resp` but its implementation is not among the sources;
it discards the whole unread region by moving the read cursor to `w_pos`. -/
def skip_to_end (b : BytesBuffer) : BytesBuffer :=
  { b with r_pos := b.w_pos }

end BytesBuffer

/-- A buffer whose store is exactly `data`, fully unread. -/
def mkBuf (data : List Nat) : BytesBuffer :=
  ⟨0, data.length, data.length, none, data⟩

/-- A buffer holding `data` unread, with `extra` zero bytes of free space. -/
def mkBufC (data : List Nat) (extra : Nat) : BytesBuffer :=
  ⟨0, data.length, data.length + extra, none, data ++ List.replicate extra 0⟩

/-- `RespType` (src/redis_type.rs): string payloads as UTF-8 bytes, the
`Map` as its insertion-ordered key/value list (the `BTreeMap<OrderKey, _>`
orders by the insertion index, so it is exactly an ordered association
list), the `Set` as its insertion-ordered element list (the
`HashSet<OrderKey>` keys are distinct indices, so nothing is deduplicated). -/
inductive RespType where
  | simpleStrings (value : List Nat)
  | bulkStrings (value : List Nat)
  | integers (value : Int)
  | booleans (value : Bool)
  | nulls
  | maps (value : List (RespType × RespType))
  | sets (value : List RespType)
  | arrays (value : List RespType)
  | simpleErrors (value : List Nat)
  | bulkErrors (value : List Nat)

open BytesBuffer

/-- `SimpleString::decode`: everything up to the terminator. -/
def SimpleString.decode (b : BytesBuffer) : Option (List Nat) × BytesBuffer :=
  match get_slice_until TERMINATOR b with
  | (some stringBytes, b1) => (some stringBytes, b1)
  | (none, b1) => (none, b1)

/-- `BulkString::decode`: a decimal length line, then exactly `length`
payload bytes and a two-byte terminator, all of which must be available. -/
def BulkString.decode (b : BytesBuffer) : Option (List Nat) × BytesBuffer :=
  match get_slice_until TERMINATOR b with
  | (some lengthBytes, b1) =>
      match parseUsize lengthBytes with
      | some bytesLength =>
          if b1.has_remaining_at_least (bytesLength + 2) then
            let v := get_slice b1 bytesLength
            let t1 := get_u8 v.2
            let t2 := get_u8 t1.2
            (some v.1, t2.2)
          else (none, b1)
      | none => (none, b1)
  | (none, b1) => (none, b1)

/-- `Integer::decode`: one line, parsed as a signed integer. -/
def Integer.decode (b : BytesBuffer) : Option Int × BytesBuffer :=
  match get_slice_until TERMINATOR b with
  | (some digitsBytes, b1) =>
      match parseIsize digitsBytes with
      | some v => (some v, b1)
      | none => (none, b1)
  | (none, b1) => (none, b1)

/-- `Boolean::decode`: needs 3 bytes (flag + terminator); the flag compares
against `t` (116), everything else — including `f` — yields `false`; the two
terminator bytes are consumed without validation. -/
def Boolean.decode (b : BytesBuffer) : Option Bool × BytesBuffer :=
  if b.has_remaining_at_least 3 then
    let f := get_u8 b
    let t1 := get_u8 f.2
    let t2 := get_u8 t1.2
    (some (f.1 = 116), t2.2)
  else (none, b)

/-- `Null::decode`: consumes the two terminator bytes without validation. -/
def Null.decode (b : BytesBuffer) : Option Unit × BytesBuffer :=
  if b.has_remaining_at_least 2 then
    let t1 := get_u8 b
    let t2 := get_u8 t1.2
    (some (), t2.2)
  else (none, b)

/-- `SimpleError::decode`: same shape as `SimpleString::decode`. -/
def SimpleError.decode (b : BytesBuffer) : Option (List Nat) × BytesBuffer :=
  match get_slice_until TERMINATOR b with
  | (some valueBytes, b1) => (some valueBytes, b1)
  | (none, b1) => (none, b1)

/-- `BulkError::decode`: identical shape to `BulkString::decode`. -/
def BulkError.decode (b : BytesBuffer) : Option (List Nat) × BytesBuffer :=
  match get_slice_until TERMINATOR b with
  | (some lengthBytes, b1) =>
      match parseUsize lengthBytes with
      | some bytesLength =>
          if b1.has_remaining_at_least (bytesLength + 2) then
            let v := get_slice b1 bytesLength
            let t1 := get_u8 v.2
            let t2 := get_u8 t1.2
            (some v.1, t2.2)
          else (none, b1)
      | none => (none, b1)
  | (none, b1) => (none, b1)

/-- The element loop shared by `Array::decode` and `Set::decode`: decode `n`
child values with `dec`, stopping (and keeping the buffer as the failing
child left it) on the first failure. -/
def decodeElemsGo (dec : BytesBuffer → Option RespType × BytesBuffer) :
    Nat → BytesBuffer → Option (List RespType) × BytesBuffer
  | 0, b => (some [], b)
  | n + 1, b =>
      match dec b with
      | (some v, b1) =>
          match decodeElemsGo dec n b1 with
          | (some vs, b2) => (some (v :: vs), b2)
          | (none, b2) => (none, b2)
      | (none, b1) => (none, b1)

/-- The pair loop of `Map::decode`: key then value, `n` times. -/
def decodePairsGo (dec : BytesBuffer → Option RespType × BytesBuffer) :
    Nat → BytesBuffer → Option (List (RespType × RespType)) × BytesBuffer
  | 0, b => (some [], b)
  | n + 1, b =>
      match dec b with
      | (some k, b1) =>
          match dec b1 with
          | (some v, b2) =>
              match decodePairsGo dec n b2 with
              | (some ps, b3) => (some ((k, v) :: ps), b3)
              | (none, b3) => (none, b3)
          | (none, b2) => (none, b2)
      | (none, b1) => (none, b1)

/-- `Array::decode`, parameterised by the child decoder: a decimal element
count line, then that many children; any child failure fails the whole
decode with the buffer left where the failing child left it. -/
def Array.decode (dec : BytesBuffer → Option RespType × BytesBuffer)
    (b : BytesBuffer) : Option (List RespType) × BytesBuffer :=
  match get_slice_until TERMINATOR b with
  | (some noeBytes, b1) =>
      match parseUsize noeBytes with
      | some noe => decodeElemsGo dec noe b1
      | none => (none, b1)
  | (none, b1) => (none, b1)

/-- `Set::decode`: same count-then-elements shape as `Array::decode`. -/
def Set.decode (dec : BytesBuffer → Option RespType × BytesBuffer)
    (b : BytesBuffer) : Option (List RespType) × BytesBuffer :=
  match get_slice_until TERMINATOR b with
  | (some noeBytes, b1) =>
      match parseUsize noeBytes with
      | some noe => decodeElemsGo dec noe b1
      | none => (none, b1)
  | (none, b1) => (none, b1)

/-- `Map::decode`: a decimal pair count line, then that many key/value pairs. -/
def Map.decode (dec : BytesBuffer → Option RespType × BytesBuffer)
    (b : BytesBuffer) : Option (List (RespType × RespType)) × BytesBuffer :=
  match get_slice_until TERMINATOR b with
  | (some noeBytes, b1) =>
      match parseUsize noeBytes with
      | some noe => decodePairsGo dec noe b1
      | none => (none, b1)
  | (none, b1) => (none, b1)

/-- The tag dispatch of `RespType::decode`, exactly the source `match`:
`+` `$` `:` `#` `_` `%` `~` `*` `-` `!`, any other tag falling through to
`None` with the tag byte already consumed; `dec` is the recursive decoder
handed to the aggregate cases. -/
def RespType.decodeTag (dec : BytesBuffer → Option RespType × BytesBuffer)
    (byte : Nat) (b1 : BytesBuffer) : Option RespType × BytesBuffer :=
  if byte = 43 then
    match SimpleString.decode b1 with
    | (some v, b2) => (some (.simpleStrings v), b2)
    | (none, b2) => (none, b2)
  else if byte = 36 then
    match BulkString.decode b1 with
    | (some v, b2) => (some (.bulkStrings v), b2)
    | (none, b2) => (none, b2)
  else if byte = 58 then
    match Integer.decode b1 with
    | (some v, b2) => (some (.integers v), b2)
    | (none, b2) => (none, b2)
  else if byte = 35 then
    match Boolean.decode b1 with
    | (some v, b2) => (some (.booleans v), b2)
    | (none, b2) => (none, b2)
  else if byte = 95 then
    match Null.decode b1 with
    | (some _, b2) => (some .nulls, b2)
    | (none, b2) => (none, b2)
  else if byte = 37 then
    match Map.decode dec b1 with
    | (some v, b2) => (some (.maps v), b2)
    | (none, b2) => (none, b2)
  else if byte = 126 then
    match Set.decode dec b1 with
    | (some v, b2) => (some (.sets v), b2)
    | (none, b2) => (none, b2)
  else if byte = 42 then
    match Array.decode dec b1 with
    | (some v, b2) => (some (.arrays v), b2)
    | (none, b2) => (none, b2)
  else if byte = 45 then
    match SimpleError.decode b1 with
    | (some v, b2) => (some (.simpleErrors v), b2)
    | (none, b2) => (none, b2)
  else if byte = 33 then
    match BulkError.decode b1 with
    | (some v, b2) => (some (.bulkErrors v), b2)
    | (none, b2) => (none, b2)
  else
    (none, b1)

/-- `RespType::decode` with explicit recursion fuel: with no unread byte the
buffer is untouched and the result is `None`; otherwise the tag byte is
consumed (and never restored) and dispatched through `decodeTag`. -/
def RespType.decodeGo : Nat → BytesBuffer → Option RespType × BytesBuffer
  | 0, b => (none, b)
  | fuel + 1, b =>
      if b.has_remaining then
        RespType.decodeTag (RespType.decodeGo fuel) (get_u8 b).1 (get_u8 b).2
      else (none, b)

/-- `RespType::decode`: the fuelled decoder at fuel `remaining + 1`, which
covers the unbounded Rust recursion because each level consumes at least its
tag byte before descending. -/
def RespType.decode (b : BytesBuffer) : Option RespType × BytesBuffer :=
  RespType.decodeGo (b.w_pos - b.r_pos + 1) b

/-- `BulkString::encode`: `$`, decimal byte length, terminator, payload,
terminator; `none` models a buffer-overrun panic. -/
def BulkString.encode (v : List Nat) (b : BytesBuffer) : Option BytesBuffer :=
  (put_u8 36 b).bind fun b1 =>
  (put_u8_slice (natDigits v.length) b1).bind fun b2 =>
  (put_u8_slice TERMINATOR b2).bind fun b3 =>
  (put_u8_slice v b3).bind fun b4 =>
  put_u8_slice TERMINATOR b4

mutual

/-- `RespType::encode`: only `Arrays` and `BulkStrings` write anything; every
other variant is a silent no-op leaving the buffer untouched. -/
def RespType.encode : RespType → BytesBuffer → Option BytesBuffer
  | .arrays l, b =>
      (put_u8 42 b).bind fun b1 =>
      (put_u8_slice (natDigits l.length) b1).bind fun b2 =>
      (put_u8_slice TERMINATOR b2).bind fun b3 =>
      RespType.encodeList l b3
  | .bulkStrings v, b => BulkString.encode v b
  | _, b => some b

/-- The `for item in &self.value { item.encode(buff) }` loop of
`Array::encode`. -/
def RespType.encodeList : List RespType → BytesBuffer → Option BytesBuffer
  | [], b => some b
  | v :: vs, b => (RespType.encode v b).bind (RespType.encodeList vs)

end

mutual

/-- The byte string an encode appends to the buffer (payload of the
buffer-level `RespType::encode`): nothing for the non-outbound variants. -/
def respEncBytes : RespType → List Nat
  | .arrays l => 42 :: (natDigits l.length ++ (TERMINATOR ++ respEncBytesList l))
  | .bulkStrings v => 36 :: (natDigits v.length ++ (TERMINATOR ++ (v ++ TERMINATOR)))
  | _ => []

/-- Concatenated encodings of a list of values. -/
def respEncBytesList : List RespType → List Nat
  | [] => []
  | v :: vs => respEncBytes v ++ respEncBytesList vs

end

/-- Rust `str::split(" ")` on the byte level: split on the single space
character (byte 32), keeping empty tokens; `""` yields one empty token. -/
def splitOnSpace : List Nat → List (List Nat)
  | [] => [[]]
  | c :: rest =>
      if c = 32 then [] :: splitOnSpace rest
      else
        match splitOnSpace rest with
        | t :: ts => (c :: t) :: ts
        | [] => [[c]]

/-- `RespType::create_from_command_line`: split the line on single spaces
and wrap every token as a `BulkString` inside an `Array`. -/
def RespType.create_from_command_line (value : List Nat) : RespType :=
  .arrays ((splitOnSpace value).map .bulkStrings)

/-- Outcome of `RedisClient::read_resp` against a scripted transport. -/
inductive ReadOutcome where
  | ok (v : RespType) (b : BytesBuffer)
  | connClosed
  | blocked

/-- `RedisClient::read_resp` (src/redis_client.rs lines 110-137) with the
socket modelled as a script of chunks, each the result of one blocking read
(`[]` is a zero-byte read, i.e. peer close).  Per iteration: try to decode;
on success return the value; otherwise bump the attempt counter, and at 10
consecutive failures discard the whole unread region (`skip_to_end`) and
restart the counter; then read one chunk — zero bytes means the connection
was closed, otherwise append the bytes and loop.  An exhausted script means
the next read would block forever (`blocked`). -/
def readRespLoop : List (List Nat) → Nat → BytesBuffer → ReadOutcome
  | [], _, b =>
      match RespType.decode b with
      | (some v, b1) => .ok v b1
      | (none, _) => .blocked
  | chunk :: rest, attemptCount, b =>
      match RespType.decode b with
      | (some v, b1) => .ok v b1
      | (none, b1) =>
          let a := attemptCount + 1
          let b2 := if 10 ≤ a then b1.skip_to_end else b1
          let a2 := if 10 ≤ a then 0 else a
          if chunk.length = 0 then .connClosed
          else readRespLoop rest a2 (BytesBuffer.fillBytes chunk b2)

/-! ### Reading the unread region -/

namespace BytesBuffer

theorem getD_of_unread_cons {b : BytesBuffer} {c : Nat} {t : List Nat}
    (h : unread b = c :: t) :
    b.bytes.getD b.r_pos 0 = c ∧ b.r_pos < b.w_pos ∧
      (b.bytes.take b.w_pos).drop (b.r_pos + 1) = t := by
  unfold unread at h
  have hh : (b.bytes.take b.w_pos)[b.r_pos]? = some c := by
    rw [← List.head?_drop, h, List.head?_cons]
  rw [List.getElem?_take] at hh
  by_cases hlt : b.r_pos < b.w_pos
  · rw [if_pos hlt] at hh
    refine ⟨?_, hlt, ?_⟩
    · rw [List.getD_eq_getElem?_getD, hh, Option.getD_some]
    · have h2 : (b.bytes.take b.w_pos).drop (b.r_pos + 1)
          = ((b.bytes.take b.w_pos).drop b.r_pos).drop 1 := by
        rw [List.drop_drop]
      rw [h2, h, List.drop_one, List.tail_cons]
  · rw [if_neg hlt] at hh
    exact absurd hh (by simp)

theorem take_drop_of_unread_append {b : BytesBuffer} {X rest : List Nat}
    (h : unread b = X ++ rest) :
    (b.bytes.drop b.r_pos).take X.length = X := by
  unfold unread at h
  have hlen := congrArg List.length h
  simp only [List.length_drop, List.length_take, List.length_append] at hlen
  have hmin : min b.w_pos b.bytes.length ≤ b.w_pos := min_le_left _ _
  have hle : X.length ≤ b.w_pos - b.r_pos := by omega
  have h2 : List.take (b.w_pos - b.r_pos) (b.bytes.drop b.r_pos) = X ++ rest := by
    rw [← List.drop_take, h]
  calc (b.bytes.drop b.r_pos).take X.length
      = ((b.bytes.drop b.r_pos).take (b.w_pos - b.r_pos)).take X.length := by
        rw [List.take_take, Nat.min_eq_left hle]
    _ = (X ++ rest).take X.length := by rw [h2]
    _ = X := by rw [List.take_append_of_le_length (le_refl _), List.take_length]

theorem unread_drop_append {b : BytesBuffer} {X rest : List Nat}
    (h : unread b = X ++ rest) :
    (b.bytes.take b.w_pos).drop (b.r_pos + X.length) = rest := by
  have h2 : (b.bytes.take b.w_pos).drop (b.r_pos + X.length)
      = ((b.bytes.take b.w_pos).drop b.r_pos).drop X.length := by
    rw [List.drop_drop]
  rw [h2, show (b.bytes.take b.w_pos).drop b.r_pos = unread b from rfl, h,
    List.drop_append_of_le_length (le_refl _), List.drop_length, List.nil_append]

theorem r_add_le_w_of_unread {b : BytesBuffer} {X rest : List Nat}
    (h : unread b = X ++ rest) (hne : X ++ rest ≠ []) :
    b.r_pos + X.length ≤ b.w_pos := by
  unfold unread at h
  have hlen := congrArg List.length h
  simp only [List.length_drop, List.length_take, List.length_append] at hlen
  have hmin : min b.w_pos b.bytes.length ≤ b.w_pos := min_le_left _ _
  have hpos : 0 < X.length + rest.length := by
    cases X with
    | nil => cases rest with
      | nil => exact absurd rfl hne
      | cons c t => simp
    | cons c t => simp
  omega

/-! ### The delimiter scan -/

theorem scanLoop_clean (post : List Nat) :
    ∀ (pre : List Nat) (pos count : Nat), (∀ c ∈ pre, c ≠ 13) →
    scanLoop TERMINATOR (pre ++ 13 :: 10 :: post) pos count 0
      = (pos + pre.length + 2, count + pre.length, 2) := by
  intro pre
  induction pre with
  | nil =>
      intro pos count _
      show scanLoop TERMINATOR (13 :: 10 :: post) pos count 0 = _
      simp [scanLoop, TERMINATOR]
  | cons c pre ih =>
      intro pos count hc
      have hc0 : c ≠ 13 := hc c (List.mem_cons_self c pre)
      have hne : ¬ ((13 : Nat) = c) := fun h => hc0 h.symm
      have hstep : scanLoop TERMINATOR ((c :: pre) ++ 13 :: 10 :: post) pos count 0
          = scanLoop TERMINATOR (pre ++ 13 :: 10 :: post) (pos + 1) (count + 1) 0 := by
        show scanLoop TERMINATOR (c :: (pre ++ 13 :: 10 :: post)) pos count 0 = _
        rw [scanLoop]
        simp [TERMINATOR, hne]
      rw [hstep, ih (pos + 1) (count + 1) (fun d hd => hc d (List.mem_cons_of_mem c hd))]
      have h1 : pos + 1 + pre.length + 2 = pos + (c :: pre).length + 2 := by
        simp only [List.length_cons]; omega
      have h2 : count + 1 + pre.length = count + (c :: pre).length := by
        simp only [List.length_cons]; omega
      rw [h1, h2]

theorem scanLoop_bounds (untilD : List Nat) :
    ∀ (l : List Nat) (pos count st : Nat),
      pos ≤ (scanLoop untilD l pos count st).1 ∧
      (scanLoop untilD l pos count st).1 ≤ pos + l.length ∧
      (scanLoop untilD l pos count st).2.1 ≤ count + l.length := by
  intro l
  induction l with
  | nil =>
      intro pos count st
      exact ⟨le_refl _, by simp [scanLoop], by simp [scanLoop]⟩
  | cons byte rest ih =>
      intro pos count st
      rw [scanLoop]
      have hsd : (if untilD.getD st 0 = byte then (st + 1, count) else (0, count + 1)).2
          ≤ count + 1 := by
        by_cases hm : untilD.getD st 0 = byte
        · rw [if_pos hm]; exact Nat.le_succ count
        · rw [if_neg hm]
      have hlc : (byte :: rest).length = rest.length + 1 := rfl
      by_cases hb : (if untilD.getD st 0 = byte then (st + 1, count)
          else (0, count + 1)).1 = untilD.length
      · rw [if_pos hb]
        refine ⟨Nat.le_succ pos, ?_, ?_⟩ <;> dsimp only <;> omega
      · rw [if_neg hb]
        obtain ⟨ha1, ha2, ha3⟩ := ih (pos + 1)
          (if untilD.getD st 0 = byte then (st + 1, count) else (0, count + 1)).2
          (if untilD.getD st 0 = byte then (st + 1, count) else (0, count + 1)).1
        refine ⟨?_, ?_, ?_⟩ <;> dsimp only <;> omega

theorem scanLoop_extend (untilD ext : List Nat) :
    ∀ (l : List Nat) (pos count st : Nat), st < untilD.length →
      (scanLoop untilD l pos count st).2.2 = untilD.length →
      scanLoop untilD (l ++ ext) pos count st = scanLoop untilD l pos count st := by
  intro l
  induction l with
  | nil =>
      intro pos count st hst hres
      rw [scanLoop] at hres
      exact absurd hres (Nat.ne_of_lt hst)
  | cons byte rest ih =>
      intro pos count st hst hres
      rw [List.cons_append] at *
      rw [scanLoop] at hres ⊢
      rw [scanLoop]
      by_cases hb : (if untilD.getD st 0 = byte then (st + 1, count)
          else (0, count + 1)).1 = untilD.length
      · simp only [if_pos hb] at hres ⊢
      · simp only [if_neg hb] at hres ⊢
        have hlt : (if untilD.getD st 0 = byte then (st + 1, count)
            else (0, count + 1)).1 < untilD.length := by
          by_cases hm : untilD.getD st 0 = byte
          · rw [if_pos hm] at hb ⊢; omega
          · rw [if_neg hm] at hb ⊢; omega
        exact ih (pos + 1) _ _ hlt hres

/-! ### `get_slice_until` behaviour -/

/-- `get_slice_until` without the intermediate lets: on a found delimiter the
counted slice, the scan-final cursor and the mark from entry; otherwise the
cursor restored to entry and the mark cleared. -/
theorem get_slice_until_eq (u : List Nat) (b : BytesBuffer) :
    get_slice_until u b =
      if (scanLoop u b.unread b.r_pos 0 0).2.2 = u.length then
        (some (listSlice b.bytes b.r_pos (scanLoop u b.unread b.r_pos 0 0).2.1),
          { b with mark := some b.r_pos, r_pos := (scanLoop u b.unread b.r_pos 0 0).1 })
      else (none, { b with mark := none }) := rfl

theorem get_slice_until_clean {b : BytesBuffer} {pre post : List Nat}
    (hshape : unread b = pre ++ 13 :: 10 :: post) (hclean : ∀ c ∈ pre, c ≠ 13) :
    get_slice_until TERMINATOR b
      = (some pre,
          { b with r_pos := b.r_pos + pre.length + 2, mark := some b.r_pos }) := by
  have hsl : listSlice b.bytes b.r_pos pre.length = pre :=
    take_drop_of_unread_append hshape
  rw [get_slice_until_eq, hshape, scanLoop_clean post pre b.r_pos 0 hclean]
  norm_num [TERMINATOR, hsl]

theorem get_slice_until_spec (u : List Nat) (b : BytesBuffer) :
    (get_slice_until u b).2.bytes = b.bytes ∧
    (get_slice_until u b).2.w_pos = b.w_pos ∧
    (get_slice_until u b).2.capacity = b.capacity ∧
    b.r_pos ≤ (get_slice_until u b).2.r_pos ∧
    (get_slice_until u b).2.r_pos ≤ max b.r_pos b.w_pos := by
  rw [get_slice_until_eq]
  have hb := scanLoop_bounds u b.unread b.r_pos 0 0
  have hlen : b.unread.length ≤ max b.r_pos b.w_pos - b.r_pos := by
    unfold unread
    simp only [List.length_drop, List.length_take]
    have : min b.w_pos b.bytes.length ≤ b.w_pos := min_le_left _ _
    omega
  by_cases hs : (scanLoop u b.unread b.r_pos 0 0).2.2 = u.length
  · rw [if_pos hs]
    obtain ⟨h1, h2, h3⟩ := hb
    refine ⟨rfl, rfl, rfl, ?_, ?_⟩ <;> dsimp only <;> omega
  · rw [if_neg hs]
    exact ⟨rfl, rfl, rfl, le_refl _, le_max_left _ _⟩

end BytesBuffer

/-- C6 counterexample: in the buffer holding `a \r \r b \r \n` the first
occurrence of the delimiter starts at index 4, so the bytes strictly before
it are `[97, 13, 13, 98]`; `get_slice_until` instead returns `[97, 13, 13]`
(partially matched delimiter bytes are dropped from the count) and leaves
the mark set to the entry position instead of clearing it. -/
theorem c6_counterexample :
    BytesBuffer.get_slice_until TERMINATOR (mkBuf [97, 13, 13, 98, 13, 10])
        = (some [97, 13, 13], ⟨6, 6, 6, some 0, [97, 13, 13, 98, 13, 10]⟩) ∧
      [97, 13, 13] ≠ [97, 13, 13, 98] ∧
      (some 0 : Option Nat) ≠ none := by
  exact ⟨rfl, by decide, by decide⟩

/-- C6 amended: for every buffer whose unread region contains the delimiter
`\r\n` and whose content before the delimiter contains no byte equal to the
delimiter's first byte `\r`, `get_slice_until` returns exactly the bytes
strictly before the first delimiter occurrence and advances the read cursor
past the delimiter; the mark is left set to the cursor position at entry
(it is not cleared). -/
theorem c6_theorem {b : BytesBuffer} {pre post : List Nat}
    (hshape : b.unread = pre ++ 13 :: 10 :: post) (hclean : ∀ c ∈ pre, c ≠ 13) :
    BytesBuffer.get_slice_until TERMINATOR b
      = (some pre,
          { b with r_pos := b.r_pos + pre.length + 2, mark := some b.r_pos }) :=
  BytesBuffer.get_slice_until_clean hshape hclean

/-- C6 witness: the amended statement evaluated on the buffer `a b \r \n c`. -/
theorem c6_witness :
    (mkBuf [97, 98, 13, 10, 99]).unread = [97, 98] ++ 13 :: 10 :: [99] ∧
      BytesBuffer.get_slice_until TERMINATOR (mkBuf [97, 98, 13, 10, 99])
        = (some [97, 98], ⟨4, 5, 5, some 0, [97, 98, 13, 10, 99]⟩) := by
  refine ⟨rfl, ?_⟩
  have h := @c6_theorem (mkBuf [97, 98, 13, 10, 99]) [97, 98] [99]
    rfl (by decide)
  exact h

/-! ### Unfolding the decoder one tag at a time -/

theorem decode_eq_go (b : BytesBuffer) :
    RespType.decode b = RespType.decodeGo (b.w_pos - b.r_pos + 1) b := rfl

theorem decodeGo_succ_of_cons {b : BytesBuffer} {c : Nat} {t : List Nat} (fuel : Nat)
    (h : b.unread = c :: t) :
    RespType.decodeGo (fuel + 1) b
      = RespType.decodeTag (RespType.decodeGo fuel) c { b with r_pos := b.r_pos + 1 } := by
  obtain ⟨hg, hlt, -⟩ := BytesBuffer.getD_of_unread_cons h
  have hrem : b.has_remaining = true := decide_eq_true hlt
  rw [RespType.decodeGo, if_pos hrem]
  rw [show (BytesBuffer.get_u8 b).1 = c from hg]
  rfl

theorem decode_unfold {b : BytesBuffer} {c : Nat} {t : List Nat}
    (h : b.unread = c :: t) :
    RespType.decode b
      = RespType.decodeTag (RespType.decodeGo (b.w_pos - b.r_pos)) c
          { b with r_pos := b.r_pos + 1 } :=
  decodeGo_succ_of_cons (b.w_pos - b.r_pos) h

/-- `Boolean::decode` with at least a flag byte and two trailer bytes
available: the flag is compared against `t` (116), everything else mapping to
`false`, and the two trailer bytes are consumed without validation. -/
theorem Boolean.decode_of_three {b : BytesBuffer} {flag c1 c2 : Nat} {rest : List Nat}
    (h : b.unread = flag :: c1 :: c2 :: rest) :
    Boolean.decode b = (some (decide (flag = 116)), { b with r_pos := b.r_pos + 3 }) := by
  have hx : b.unread = [flag, c1, c2] ++ rest := h
  have hle := BytesBuffer.r_add_le_w_of_unread hx (by simp)
  have hl3 : ([flag, c1, c2] : List Nat).length = 3 := rfl
  obtain ⟨hg, -, -⟩ := BytesBuffer.getD_of_unread_cons h
  have hat : b.has_remaining_at_least 3 = true := decide_eq_true (by omega)
  simp only [Boolean.decode, hat, if_true]
  rw [show (BytesBuffer.get_u8 b).1 = flag from hg]
  rfl

/-- `Boolean::decode` with fewer than three available bytes reports
incompleteness and leaves the buffer untouched. -/
theorem Boolean.decode_short {b : BytesBuffer} {t : List Nat}
    (hwf : b.w_pos ≤ b.bytes.length) (h : b.unread = t) (hlen : t.length < 3) :
    Boolean.decode b = (none, b) := by
  have hulen : b.unread.length = b.w_pos - b.r_pos ∨ b.w_pos ≤ b.r_pos := by
    unfold BytesBuffer.unread
    simp only [List.length_drop, List.length_take]
    omega
  have hat : ¬ (b.has_remaining_at_least 3 = true) := by
    simp only [BytesBuffer.has_remaining_at_least, decide_eq_true_eq]
    have := congrArg List.length h
    rcases hulen with h1 | h1 <;> omega
  simp only [Boolean.decode, hat, if_false]
  rfl

/-- C7 counterexample: the flag byte `x` (120) is neither `t` nor `f`, yet
`#x\r\n` decodes to `Boolean(false)` — not a malformed outcome. -/
theorem c7_counterexample :
    RespType.decode (mkBuf [35, 120, 13, 10])
        = (some (.booleans false), ⟨4, 4, 4, none, [35, 120, 13, 10]⟩) ∧
      (some (RespType.booleans false) : Option RespType) ≠ none := by
  refine ⟨rfl, by simp⟩

/-- C7 amended: decoding a value tagged `#` (35) requires at least three more
bytes, reporting incompleteness with only the tag consumed otherwise; the
flag byte `t` (116) decodes to `Boolean(true)` and EVERY other flag byte —
including `f` — decodes to `Boolean(false)`; the two trailing bytes are
consumed without validation and no flag byte is malformed. -/
theorem c7_theorem :
    (∀ (b : BytesBuffer) (flag c1 c2 : Nat) (rest : List Nat),
        b.unread = 35 :: flag :: c1 :: c2 :: rest →
        RespType.decode b
          = (some (.booleans (decide (flag = 116))), { b with r_pos := b.r_pos + 4 })) ∧
    (∀ (b : BytesBuffer) (t : List Nat), b.w_pos ≤ b.bytes.length →
        b.unread = 35 :: t → t.length < 3 →
        RespType.decode b = (none, { b with r_pos := b.r_pos + 1 })) := by
  constructor
  · intro b flag c1 c2 rest h
    obtain ⟨-, -, ht⟩ := BytesBuffer.getD_of_unread_cons h
    rw [decode_unfold h]
    have hb :
        Boolean.decode { b with r_pos := b.r_pos + 1 }
          = (some (decide (flag = 116)), { b with r_pos := b.r_pos + 1 + 3 }) :=
      Boolean.decode_of_three (b := { b with r_pos := b.r_pos + 1 }) ht
    rw [show RespType.decodeTag (RespType.decodeGo (b.w_pos - b.r_pos)) 35
          { b with r_pos := b.r_pos + 1 }
        = (match Boolean.decode { b with r_pos := b.r_pos + 1 } with
            | (some v, b2) => (some (.booleans v), b2)
            | (none, b2) => (none, b2)) from rfl, hb]
  · intro b t hwf h hlen
    obtain ⟨-, -, ht⟩ := BytesBuffer.getD_of_unread_cons h
    rw [decode_unfold h]
    have hb : Boolean.decode { b with r_pos := b.r_pos + 1 }
        = (none, { b with r_pos := b.r_pos + 1 }) :=
      Boolean.decode_short (b := { b with r_pos := b.r_pos + 1 }) hwf ht hlen
    rw [show RespType.decodeTag (RespType.decodeGo (b.w_pos - b.r_pos)) 35
          { b with r_pos := b.r_pos + 1 }
        = (match Boolean.decode { b with r_pos := b.r_pos + 1 } with
            | (some v, b2) => (some (.booleans v), b2)
            | (none, b2) => (none, b2)) from rfl, hb]

/-- C7 witness: the amended statement evaluated on `#f\r\n` (flag `f` gives
`false`) and on the two-byte prefix `#f` (incomplete). -/
theorem c7_witness :
    RespType.decode (mkBuf [35, 102, 13, 10])
        = (some (.booleans false), ⟨4, 4, 4, none, [35, 102, 13, 10]⟩) ∧
      RespType.decode (mkBuf [35, 102])
        = (none, ⟨1, 2, 2, none, [35, 102]⟩) := by
  constructor
  · have h := c7_theorem.1 (mkBuf [35, 102, 13, 10]) 102 13 10 [] rfl
    simpa using h
  · have h := c7_theorem.2 (mkBuf [35, 102]) [102] (by decide) rfl (by decide)
    simpa using h

/-! ### C10: encode is a silent no-op on the non-outbound variants -/

/-- Whether the variant is one of the two shapes the client ever encodes
(`Arrays`, `BulkStrings`); every other variant falls into the silent
`_ => {}` arm of `RespType::encode`. -/
def RespType.isOutboundEncodable : RespType → Bool
  | .arrays _ => true
  | .bulkStrings _ => true
  | _ => false

/-- C10: for every variant other than `Arrays` and `BulkStrings`, `encode`
returns the buffer completely unchanged — no bytes written, no cursor moved,
no error. -/
theorem c10_theorem (v : RespType) (b : BytesBuffer)
    (h : v.isOutboundEncodable = false) : RespType.encode v b = some b := by
  cases v <;> simp [RespType.isOutboundEncodable] at h ⊢ <;>
    (rw [RespType.encode] <;> simp)

/-- C10 witness: encoding a `Null` into a fresh buffer leaves it untouched. -/
theorem c10_witness : RespType.encode .nulls (BytesBuffer.new 4)
    = some (BytesBuffer.new 4) :=
  c10_theorem .nulls (BytesBuffer.new 4) rfl

/-! ### C9: the cursor invariant -/

/-- The documented buffer invariant `0 ≤ r_pos ≤ w_pos ≤ capacity`
(the lower bound is automatic for `Nat`). -/
def BufInv (b : BytesBuffer) : Prop :=
  b.r_pos ≤ b.w_pos ∧ b.w_pos ≤ b.capacity

/-- C9 counterexample: a reachable operation sequence on a fresh 4-byte
buffer — fill 3, consume 3, `mark`, `compact` (which does not clear the
mark), `put_u8` — produces a state satisfying the invariant whose stale mark
(3) exceeds `w_pos` (1); `reset` then yields `r_pos = 3 > w_pos = 1`,
violating the invariant. -/
theorem c9_counterexample :
    BytesBuffer.fillBytes [1, 1, 1] (BytesBuffer.new 4)
        = ⟨0, 3, 4, none, [1, 1, 1, 0]⟩ ∧
      (BytesBuffer.get_u8 (BytesBuffer.get_u8
          (BytesBuffer.get_u8 ⟨0, 3, 4, none, [1, 1, 1, 0]⟩).2).2).2
        = ⟨3, 3, 4, none, [1, 1, 1, 0]⟩ ∧
      BytesBuffer.compact (BytesBuffer.markOp ⟨3, 3, 4, none, [1, 1, 1, 0]⟩)
        = ⟨0, 0, 4, some 3, [1, 1, 1, 0]⟩ ∧
      BytesBuffer.put_u8 5 ⟨0, 0, 4, some 3, [1, 1, 1, 0]⟩
        = some ⟨0, 1, 4, some 3, [5, 1, 1, 0]⟩ ∧
      BufInv ⟨0, 1, 4, some 3, [5, 1, 1, 0]⟩ ∧
      BytesBuffer.resetOp ⟨0, 1, 4, some 3, [5, 1, 1, 0]⟩
        = ⟨3, 1, 4, none, [5, 1, 1, 0]⟩ ∧
      ¬ BufInv ⟨3, 1, 4, none, [5, 1, 1, 0]⟩ := by
  refine ⟨rfl, rfl, rfl, rfl, ⟨by norm_num, by norm_num⟩, rfl, ?_⟩
  intro hinv
  exact absurd hinv.1 (by norm_num)

/-- C9 amended: every `BytesBuffer` operation — fill, drain, mark, reset,
take-byte, take-slice, take-until, the puts, compact — preserves
`0 ≤ r_pos ≤ w_pos ≤ capacity` under the documented availability
preconditions for the take/get operations, with `reset` additionally
requiring that the saved mark (when present) not exceed `w_pos` (a stale
mark surviving `compact` can otherwise break the invariant). -/
theorem c9_theorem :
    (∀ (b : BytesBuffer) (chunk : List Nat), BufInv b →
        chunk.length ≤ b.capacity - b.w_pos → BufInv (BytesBuffer.fillBytes chunk b)) ∧
    (∀ b : BytesBuffer, BufInv b → BufInv (BytesBuffer.write_bytes b)) ∧
    (∀ b : BytesBuffer, BufInv b → BufInv (BytesBuffer.markOp b)) ∧
    (∀ b : BytesBuffer, BufInv b → (∀ m, b.mark = some m → m ≤ b.w_pos) →
        BufInv (BytesBuffer.resetOp b)) ∧
    (∀ b : BytesBuffer, BufInv b → b.r_pos < b.w_pos →
        BufInv (BytesBuffer.get_u8 b).2) ∧
    (∀ (b : BytesBuffer) (n : Nat), BufInv b → b.r_pos + n ≤ b.w_pos →
        BufInv (BytesBuffer.get_slice b n).2) ∧
    (∀ (b : BytesBuffer) (u : List Nat), BufInv b →
        BufInv (BytesBuffer.get_slice_until u b).2) ∧
    (∀ (b b' : BytesBuffer) (c : Nat), BufInv b →
        BytesBuffer.put_u8 c b = some b' → BufInv b') ∧
    (∀ (b b' : BytesBuffer) (sl : List Nat), BufInv b →
        BytesBuffer.put_u8_slice sl b = some b' → BufInv b') ∧
    (∀ b : BytesBuffer, BufInv b → BufInv (BytesBuffer.compact b)) := by
  refine ⟨?_, ?_, ?_, ?_, ?_, ?_, ?_, ?_, ?_, ?_⟩
  · intro b chunk ⟨h1, h2⟩ hc
    exact ⟨by simp [BytesBuffer.fillBytes]; omega, by simp [BytesBuffer.fillBytes]; omega⟩
  · intro b ⟨h1, h2⟩
    unfold BytesBuffer.write_bytes BytesBuffer.compact
    rw [if_pos rfl]
    exact ⟨Nat.le_refl 0, Nat.zero_le _⟩
  · intro b h
    exact h
  · intro b ⟨h1, h2⟩ hm
    unfold BytesBuffer.resetOp
    cases hmk : b.mark with
    | none => exact ⟨h1, h2⟩
    | some m => exact ⟨hm m hmk, h2⟩
  · intro b ⟨h1, h2⟩ hr
    exact ⟨by simp [BytesBuffer.get_u8]; omega, h2⟩
  · intro b n ⟨h1, h2⟩ hr
    exact ⟨by simp [BytesBuffer.get_slice]; omega, h2⟩
  · intro b u ⟨h1, h2⟩
    obtain ⟨-, hw, hc, hr1, hr2⟩ := BytesBuffer.get_slice_until_spec u b
    refine ⟨?_, ?_⟩
    · rw [hw]; omega
    · rw [hw, hc]; omega
  · intro b b' c ⟨h1, h2⟩ hput
    unfold BytesBuffer.put_u8 at hput
    by_cases hcap : b.w_pos < b.capacity
    · rw [if_pos hcap] at hput
      cases hput
      exact ⟨by simp; omega, by simp; omega⟩
    · rw [if_neg hcap] at hput
      cases hput
  · intro b b' sl ⟨h1, h2⟩ hput
    unfold BytesBuffer.put_u8_slice at hput
    by_cases hcap : b.w_pos + sl.length ≤ b.capacity
    · rw [if_pos hcap] at hput
      cases hput
      exact ⟨by simp; omega, by simp; omega⟩
    · rw [if_neg hcap] at hput
      cases hput
  · intro b ⟨h1, h2⟩
    unfold BytesBuffer.compact
    by_cases he : b.r_pos = b.w_pos
    · rw [if_pos he]
      exact ⟨Nat.le_refl 0, Nat.zero_le _⟩
    · rw [if_neg he]
      refine ⟨Nat.zero_le _, ?_⟩
      show b.w_pos - b.r_pos ≤ b.capacity
      omega

/-- C9 witness: the take-byte preservation clause at a concrete state. -/
theorem c9_witness :
    BufInv ⟨0, 2, 4, none, [7, 8, 0, 0]⟩ ∧
      BufInv (BytesBuffer.get_u8 ⟨0, 2, 4, none, [7, 8, 0, 0]⟩).2 := by
  refine ⟨⟨by norm_num, by norm_num⟩, ?_⟩
  exact c9_theorem.2.2.2.2.1 ⟨0, 2, 4, none, [7, 8, 0, 0]⟩
    ⟨by norm_num, by norm_num⟩ (by norm_num)

/-! ### C8: command-line tokenization -/

/-- Join tokens back with single spaces (specification-side inverse used to
characterise `splitOnSpace`). -/
def joinSpace : List (List Nat) → List Nat
  | [] => []
  | [t] => t
  | t :: ts => t ++ 32 :: joinSpace ts

theorem splitOnSpace_ne_nil (s : List Nat) : splitOnSpace s ≠ [] := by
  cases s with
  | nil => simp [splitOnSpace]
  | cons c rest =>
      unfold splitOnSpace
      by_cases hc : c = 32
      · rw [if_pos hc]; simp
      · rw [if_neg hc]
        cases h : splitOnSpace rest <;> simp

theorem joinSpace_cons {t : List Nat} {l : List (List Nat)} (h : l ≠ []) :
    joinSpace (t :: l) = t ++ 32 :: joinSpace l := by
  cases l with
  | nil => exact absurd rfl h
  | cons u us => rfl

theorem joinSpace_splitOnSpace (s : List Nat) : joinSpace (splitOnSpace s) = s := by
  induction s with
  | nil => rfl
  | cons c rest ih =>
      unfold splitOnSpace
      by_cases hc : c = 32
      · rw [if_pos hc, joinSpace_cons (splitOnSpace_ne_nil rest), ih, hc]
        rfl
      · rw [if_neg hc]
        cases h : splitOnSpace rest with
        | nil => exact absurd h (splitOnSpace_ne_nil rest)
        | cons t ts =>
            rw [h] at ih
            cases ts with
            | nil =>
                show c :: t = c :: rest
                rw [show joinSpace [t] = t from rfl] at ih
                rw [ih]
            | cons u us =>
                rw [joinSpace_cons (l := u :: us) (by simp)]
                have h2 : joinSpace (t :: u :: us) = t ++ 32 :: joinSpace (u :: us) :=
                  joinSpace_cons (by simp)
                rw [h2] at ih
                rw [List.cons_append, ih]

theorem splitOnSpace_no_space (s : List Nat) :
    ∀ t ∈ splitOnSpace s, ¬ (32 ∈ t) := by
  induction s with
  | nil =>
      intro t ht
      have ht0 : t = [] := by simpa [splitOnSpace] using ht
      subst ht0
      simp
  | cons c rest ih =>
      intro t ht
      unfold splitOnSpace at ht
      by_cases hc : c = 32
      · rw [if_pos hc] at ht
        rcases List.mem_cons.1 ht with h | h
        · simp [h]
        · exact ih t h
      · rw [if_neg hc] at ht
        cases h : splitOnSpace rest with
        | nil => exact absurd h (splitOnSpace_ne_nil rest)
        | cons u us =>
            rw [h] at ht
            rcases List.mem_cons.1 ht with h2 | h2
            · subst h2
              intro hmem
              rcases List.mem_cons.1 hmem with h3 | h3
              · exact hc h3.symm
              · exact ih u (h ▸ List.mem_cons_self u us) h3
            · exact ih t (h ▸ List.mem_cons_of_mem u h2)

/-- C8 counterexample: the tab character (9) is ASCII whitespace, but the
input `a<TAB>b` is kept as a single token containing the tab, not split into
two tokens as whitespace tokenization would demand. -/
theorem c8_counterexample :
    RespType.create_from_command_line [97, 9, 98]
        = .arrays [.bulkStrings [97, 9, 98]] ∧
      RespType.arrays [.bulkStrings [97, 9, 98]]
        ≠ .arrays [.bulkStrings [97], .bulkStrings [98]] := by
  refine ⟨rfl, ?_⟩
  intro h
  simp at h

/-- C8 amended: the command-line encoder tokenizes on the single space
character only (consecutive spaces produce empty tokens, no other ASCII
whitespace separates), yielding a RESP `Array` of `BulkStrings` with one
token per element and no quoting or escaping: the tokens contain no space
and joined with single spaces reproduce the input; the text
`set hello world` encodes to `*3\r\n$3\r\nset\r\n$5\r\nhello\r\n$5\r\nworld\r\n`. -/
theorem c8_theorem :
    (∀ s, RespType.create_from_command_line s
        = .arrays ((splitOnSpace s).map .bulkStrings)) ∧
    (∀ s, joinSpace (splitOnSpace s) = s) ∧
    (∀ s, ∀ t ∈ splitOnSpace s, ¬ (32 ∈ t)) ∧
    (RespType.encode (RespType.create_from_command_line
          [115, 101, 116, 32, 104, 101, 108, 108, 111, 32, 119, 111, 114, 108, 100])
        (BytesBuffer.new 64)).map BytesBuffer.unread
      = some [42, 51, 13, 10, 36, 51, 13, 10, 115, 101, 116, 13, 10, 36, 53, 13, 10,
          104, 101, 108, 108, 111, 13, 10, 36, 53, 13, 10,
          119, 111, 114, 108, 100, 13, 10] := by
  refine ⟨fun s => rfl, joinSpace_splitOnSpace, splitOnSpace_no_space, ?_⟩
  simp [RespType.create_from_command_line, splitOnSpace, RespType.encode,
    RespType.encodeList, BulkString.encode, BytesBuffer.put_u8,
    BytesBuffer.put_u8_slice, BytesBuffer.writeAt, natDigits, natDigitsAux,
    BytesBuffer.new, TERMINATOR, BytesBuffer.unread]

/-- C8 witness: the amended statement evaluated on `a b`. -/
theorem c8_witness :
    RespType.create_from_command_line [97, 32, 98]
        = .arrays [.bulkStrings [97], .bulkStrings [98]] ∧
      joinSpace (splitOnSpace [97, 32, 98]) = [97, 32, 98] := by
  constructor
  · rw [c8_theorem.1 [97, 32, 98]]
    rfl
  · exact c8_theorem.2.1 [97, 32, 98]

/-! ### C4: malformed bytes are indistinguishable from incomplete ones -/

/-- An unrecognized tag byte makes the decoder return `None` with the tag
byte consumed — the very same outcome as an incomplete buffer. -/
theorem decode_unknown_tag {b : BytesBuffer} {c : Nat} {t : List Nat}
    (h : b.unread = c :: t)
    (hc : ¬ (c ∈ [43, 36, 58, 35, 95, 37, 126, 42, 45, 33])) :
    RespType.decode b = (none, { b with r_pos := b.r_pos + 1 }) := by
  simp only [List.mem_cons, List.not_mem_nil, or_false] at hc
  push_neg at hc
  obtain ⟨h43, h36, h58, h35, h95, h37, h126, h42, h45, h33⟩ := hc
  rw [decode_unfold h]
  rw [RespType.decodeTag]
  rw [if_neg h43, if_neg h36, if_neg h58, if_neg h35, if_neg h95, if_neg h37,
    if_neg h126, if_neg h42, if_neg h45, if_neg h33]

/-- C4 counterexample: the buffer holding the single byte `?` (63) violates
the grammar (no such tag), yet `decode` yields `None` — the same constructor
as for an empty (incomplete) buffer, since the decoder's result type has
only two outcomes — and the reply loop then reads more and retries,
successfully returning the next value instead of failing with a protocol
error. -/
theorem c4_counterexample :
    (RespType.decode (mkBuf [63])).1 = none ∧
      (RespType.decode (mkBuf [])).1 = none ∧
      readRespLoop [[43, 79, 75, 13, 10]] 0 (mkBufC [63] 8)
        = .ok (.simpleStrings [79, 75]) ⟨6, 6, 9, some 2, [63, 43, 79, 75, 13, 10, 0, 0, 0]⟩ := by
  exact ⟨rfl, rfl, rfl⟩

/-- C4 amended: the decoder has exactly two outcomes (`Some value` /
`None`); bytes present that violate the grammar — an unrecognized leading
tag byte — yield `None` with the tag byte consumed, an outcome
indistinguishable from `Incomplete`, and the reply loop treats every failed
decode identically: it performs another read and retries instead of
surfacing a fatal protocol error. -/
theorem c4_theorem :
    (∀ (b : BytesBuffer) (c : Nat) (t : List Nat), b.unread = c :: t →
        ¬ (c ∈ [43, 36, 58, 35, 95, 37, 126, 42, 45, 33]) →
        RespType.decode b = (none, { b with r_pos := b.r_pos + 1 })) ∧
    (∀ (b : BytesBuffer) (chunk : List Nat) (rest : List (List Nat)) (n : Nat),
        (RespType.decode b).1 = none → chunk.length ≠ 0 →
        readRespLoop (chunk :: rest) n b
          = readRespLoop rest (if 10 ≤ n + 1 then 0 else n + 1)
              (BytesBuffer.fillBytes chunk
                (if 10 ≤ n + 1 then ((RespType.decode b).2).skip_to_end
                  else (RespType.decode b).2))) := by
  constructor
  · exact fun b c t h hc => decode_unknown_tag h hc
  · intro b chunk rest n h hc
    rw [readRespLoop]
    rcases hdec : RespType.decode b with ⟨o, b1⟩
    rw [hdec] at h
    simp only at h
    subst h
    dsimp only
    rw [if_neg hc]

/-- C4 witness: the amended statement evaluated on the malformed one-byte
buffer `?`. -/
theorem c4_witness :
    RespType.decode (mkBuf [63]) = (none, ⟨1, 1, 1, none, [63]⟩) ∧
      readRespLoop [[43, 79, 75, 13, 10]] 0 (mkBufC [63] 8)
        = readRespLoop [] 1
            (BytesBuffer.fillBytes [43, 79, 75, 13, 10]
              (RespType.decode (mkBufC [63] 8)).2) := by
  constructor
  · have h := c4_theorem.1 (mkBuf [63]) 63 [] rfl (by decide)
    simpa using h
  · have h := c4_theorem.2 (mkBufC [63] 8) [43, 79, 75, 13, 10] [] 0 rfl (by decide)
    simpa using h

/-! ### C3: the reply-reading loop -/

/-- C3 counterexample: the buffer starts with the valid-but-incomplete
`$5\r\nhe`; nine one-byte garbage reads push the attempt counter to the
limit, `skip_to_end` then discards all buffered bytes (including the bulk
string prefix), and the next read's `+OK\r\n` decodes — the loop both
retried non-`Incomplete` (garbage-tag) outcomes and discarded buffered
bytes. -/
theorem c3_counterexample :
    (RespType.decode (mkBufC [36, 53, 13, 10, 104, 101] 20)).1 = none ∧
      readRespLoop
          [[63], [63], [63], [63], [63], [63], [63], [63], [63], [43, 79, 75, 13, 10]]
          0 (mkBufC [36, 53, 13, 10, 104, 101] 20)
        = .ok (.simpleStrings [79, 75])
            ⟨20, 20, 26, some 16,
              [36, 53, 13, 10, 104, 101, 63, 63, 63, 63, 63, 63, 63, 63, 63,
                43, 79, 75, 13, 10, 0, 0, 0, 0, 0, 0]⟩ := by
  exact ⟨rfl, rfl⟩

/-- C3 amended: the loop retries after every failed decode outcome (the
decoder does not distinguish malformed from incomplete), bounded only by the
availability of further reads (an exhausted transport blocks); a retry read
returning zero bytes fails with ConnectionClosed; and after 10 consecutive
failed attempts the loop discards the entire unread region (`skip_to_end`)
before reading again — buffered bytes are not always preserved. -/
theorem c3_theorem :
    (∀ (n : Nat) (b : BytesBuffer), (RespType.decode b).1 = none →
        readRespLoop [] n b = .blocked) ∧
    (∀ (n : Nat) (b : BytesBuffer) (rest : List (List Nat)),
        (RespType.decode b).1 = none →
        readRespLoop ([] :: rest) n b = .connClosed) ∧
    (∀ (b : BytesBuffer) (chunk : List Nat) (rest : List (List Nat)),
        (RespType.decode b).1 = none → chunk.length ≠ 0 →
        readRespLoop (chunk :: rest) 9 b
          = readRespLoop rest 0
              (BytesBuffer.fillBytes chunk ((RespType.decode b).2.skip_to_end))) := by
  refine ⟨?_, ?_, ?_⟩
  · intro n b h
    rw [readRespLoop]
    rcases hdec : RespType.decode b with ⟨o, b1⟩
    rw [hdec] at h
    simp only at h
    subst h
    rfl
  · intro n b rest h
    rw [readRespLoop]
    rcases hdec : RespType.decode b with ⟨o, b1⟩
    rw [hdec] at h
    simp only at h
    subst h
    rfl
  · intro b chunk rest h hc
    rw [readRespLoop]
    rcases hdec : RespType.decode b with ⟨o, b1⟩
    rw [hdec] at h
    simp only at h
    subst h
    dsimp only
    rw [if_neg hc]
    norm_num

/-- C3 witness: the amended statement's zero-byte-read and blocked clauses
evaluated on a buffer holding only the byte `?`. -/
theorem c3_witness :
    readRespLoop [[]] 0 (mkBuf [63]) = .connClosed ∧
      readRespLoop [] 0 (mkBuf [63]) = .blocked := by
  exact ⟨c3_theorem.2.1 0 (mkBuf [63]) [] rfl, c3_theorem.1 0 (mkBuf [63]) rfl⟩

/-! ### Decoder frame properties: the byte store, write cursor and capacity
are untouched by decoding, and the read cursor only moves forward, staying
within the written region -/

def DecFrame (b c : BytesBuffer) : Prop :=
  c.bytes = b.bytes ∧ c.w_pos = b.w_pos ∧ c.capacity = b.capacity ∧
    b.r_pos ≤ c.r_pos ∧ c.r_pos ≤ max b.r_pos b.w_pos

theorem DecFrame.refl (b : BytesBuffer) : DecFrame b b :=
  ⟨rfl, rfl, rfl, le_refl _, le_max_left _ _⟩

theorem DecFrame.comp {a b c : BytesBuffer} (h1 : DecFrame a b) (h2 : DecFrame b c) :
    DecFrame a c := by
  obtain ⟨hb1, hw1, hc1, hr1, hm1⟩ := h1
  obtain ⟨hb2, hw2, hc2, hr2, hm2⟩ := h2
  refine ⟨hb2.trans hb1, hw2.trans hw1, hc2.trans hc1, hr1.trans hr2, ?_⟩
  rw [hw1] at hm2
  omega

theorem DecFrame.of_gsu (u : List Nat) (b : BytesBuffer) :
    DecFrame b (BytesBuffer.get_slice_until u b).2 :=
  BytesBuffer.get_slice_until_spec u b

theorem SimpleString_decode_frame (b : BytesBuffer) :
    DecFrame b (SimpleString.decode b).2 := by
  unfold SimpleString.decode
  rcases hg : BytesBuffer.get_slice_until TERMINATOR b with ⟨o, b1⟩
  have hf := DecFrame.of_gsu TERMINATOR b
  rw [hg] at hf
  cases o <;> exact hf

theorem SimpleError_decode_frame (b : BytesBuffer) :
    DecFrame b (SimpleError.decode b).2 := by
  unfold SimpleError.decode
  rcases hg : BytesBuffer.get_slice_until TERMINATOR b with ⟨o, b1⟩
  have hf := DecFrame.of_gsu TERMINATOR b
  rw [hg] at hf
  cases o <;> exact hf

theorem Integer_decode_frame (b : BytesBuffer) :
    DecFrame b (Integer.decode b).2 := by
  unfold Integer.decode
  rcases hg : BytesBuffer.get_slice_until TERMINATOR b with ⟨o, b1⟩
  have hf := DecFrame.of_gsu TERMINATOR b
  rw [hg] at hf
  cases o with
  | none => exact hf
  | some db =>
      dsimp only
      cases parseIsize db <;> exact hf

theorem BulkString_decode_frame (b : BytesBuffer) :
    DecFrame b (BulkString.decode b).2 := by
  unfold BulkString.decode
  rcases hg : BytesBuffer.get_slice_until TERMINATOR b with ⟨o, b1⟩
  have hf := DecFrame.of_gsu TERMINATOR b
  rw [hg] at hf
  cases o with
  | none => exact hf
  | some lb =>
      dsimp only
      cases parseUsize lb with
      | none => exact hf
      | some len =>
          dsimp only
          by_cases hat : b1.has_remaining_at_least (len + 2) = true
          · rw [if_pos hat]
            have hle : b1.r_pos + (len + 2) ≤ b1.w_pos := of_decide_eq_true hat
            refine DecFrame.comp hf ⟨rfl, rfl, rfl, ?_, ?_⟩
            · show b1.r_pos ≤ b1.r_pos + len + 1 + 1
              omega
            · show b1.r_pos + len + 1 + 1 ≤ max b1.r_pos b1.w_pos
              omega
          · rw [if_neg hat]
            exact hf

theorem BulkError_decode_frame (b : BytesBuffer) :
    DecFrame b (BulkError.decode b).2 := by
  unfold BulkError.decode
  rcases hg : BytesBuffer.get_slice_until TERMINATOR b with ⟨o, b1⟩
  have hf := DecFrame.of_gsu TERMINATOR b
  rw [hg] at hf
  cases o with
  | none => exact hf
  | some lb =>
      dsimp only
      cases parseUsize lb with
      | none => exact hf
      | some len =>
          dsimp only
          by_cases hat : b1.has_remaining_at_least (len + 2) = true
          · rw [if_pos hat]
            have hle : b1.r_pos + (len + 2) ≤ b1.w_pos := of_decide_eq_true hat
            refine DecFrame.comp hf ⟨rfl, rfl, rfl, ?_, ?_⟩
            · show b1.r_pos ≤ b1.r_pos + len + 1 + 1
              omega
            · show b1.r_pos + len + 1 + 1 ≤ max b1.r_pos b1.w_pos
              omega
          · rw [if_neg hat]
            exact hf

theorem Boolean_decode_frame (b : BytesBuffer) :
    DecFrame b (Boolean.decode b).2 := by
  unfold Boolean.decode
  by_cases hat : b.has_remaining_at_least 3 = true
  · rw [if_pos hat]
    have hle : b.r_pos + 3 ≤ b.w_pos := of_decide_eq_true hat
    refine ⟨rfl, rfl, rfl, ?_, ?_⟩
    · show b.r_pos ≤ b.r_pos + 1 + 1 + 1
      omega
    · show b.r_pos + 1 + 1 + 1 ≤ max b.r_pos b.w_pos
      omega
  · rw [if_neg hat]
    exact DecFrame.refl b

theorem Null_decode_frame (b : BytesBuffer) :
    DecFrame b (Null.decode b).2 := by
  unfold Null.decode
  by_cases hat : b.has_remaining_at_least 2 = true
  · rw [if_pos hat]
    have hle : b.r_pos + 2 ≤ b.w_pos := of_decide_eq_true hat
    refine ⟨rfl, rfl, rfl, ?_, ?_⟩
    · show b.r_pos ≤ b.r_pos + 1 + 1
      omega
    · show b.r_pos + 1 + 1 ≤ max b.r_pos b.w_pos
      omega
  · rw [if_neg hat]
    exact DecFrame.refl b

theorem decodeElemsGo_frame (dec : BytesBuffer → Option RespType × BytesBuffer)
    (hdec : ∀ b, DecFrame b (dec b).2) :
    ∀ (n : Nat) (b : BytesBuffer), DecFrame b (decodeElemsGo dec n b).2 := by
  intro n
  induction n with
  | zero => intro b; exact DecFrame.refl b
  | succ n ih =>
      intro b
      rw [decodeElemsGo]
      rcases hd : dec b with ⟨o, b1⟩
      have h1 := hdec b
      rw [hd] at h1
      cases o with
      | none => exact h1
      | some v =>
          dsimp only
          rcases he : decodeElemsGo dec n b1 with ⟨o2, b2⟩
          have h2 := ih b1
          rw [he] at h2
          cases o2 <;> exact DecFrame.comp h1 h2

theorem decodePairsGo_frame (dec : BytesBuffer → Option RespType × BytesBuffer)
    (hdec : ∀ b, DecFrame b (dec b).2) :
    ∀ (n : Nat) (b : BytesBuffer), DecFrame b (decodePairsGo dec n b).2 := by
  intro n
  induction n with
  | zero => intro b; exact DecFrame.refl b
  | succ n ih =>
      intro b
      rw [decodePairsGo]
      rcases hd : dec b with ⟨o, b1⟩
      have h1 := hdec b
      rw [hd] at h1
      cases o with
      | none => exact h1
      | some k =>
          dsimp only
          rcases hd2 : dec b1 with ⟨o2, b2⟩
          have h2 := hdec b1
          rw [hd2] at h2
          cases o2 with
          | none => exact DecFrame.comp h1 h2
          | some v =>
              dsimp only
              rcases he : decodePairsGo dec n b2 with ⟨o3, b3⟩
              have h3 := ih b2
              rw [he] at h3
              cases o3 <;> exact DecFrame.comp h1 (DecFrame.comp h2 h3)

theorem Array_decode_frame (dec : BytesBuffer → Option RespType × BytesBuffer)
    (hdec : ∀ b, DecFrame b (dec b).2) (b : BytesBuffer) :
    DecFrame b (Array.decode dec b).2 := by
  unfold Array.decode
  rcases hg : BytesBuffer.get_slice_until TERMINATOR b with ⟨o, b1⟩
  have hf := DecFrame.of_gsu TERMINATOR b
  rw [hg] at hf
  cases o with
  | none => exact hf
  | some nb =>
      dsimp only
      cases parseUsize nb with
      | none => exact hf
      | some n =>
          dsimp only
          exact DecFrame.comp hf (decodeElemsGo_frame dec hdec n b1)

theorem Set_decode_frame (dec : BytesBuffer → Option RespType × BytesBuffer)
    (hdec : ∀ b, DecFrame b (dec b).2) (b : BytesBuffer) :
    DecFrame b (Set.decode dec b).2 := by
  unfold Set.decode
  rcases hg : BytesBuffer.get_slice_until TERMINATOR b with ⟨o, b1⟩
  have hf := DecFrame.of_gsu TERMINATOR b
  rw [hg] at hf
  cases o with
  | none => exact hf
  | some nb =>
      dsimp only
      cases parseUsize nb with
      | none => exact hf
      | some n =>
          dsimp only
          exact DecFrame.comp hf (decodeElemsGo_frame dec hdec n b1)

theorem Map_decode_frame (dec : BytesBuffer → Option RespType × BytesBuffer)
    (hdec : ∀ b, DecFrame b (dec b).2) (b : BytesBuffer) :
    DecFrame b (Map.decode dec b).2 := by
  unfold Map.decode
  rcases hg : BytesBuffer.get_slice_until TERMINATOR b with ⟨o, b1⟩
  have hf := DecFrame.of_gsu TERMINATOR b
  rw [hg] at hf
  cases o with
  | none => exact hf
  | some nb =>
      dsimp only
      cases parseUsize nb with
      | none => exact hf
      | some n =>
          dsimp only
          exact DecFrame.comp hf (decodePairsGo_frame dec hdec n b1)

theorem decodeTag_frame (dec : BytesBuffer → Option RespType × BytesBuffer)
    (hdec : ∀ b, DecFrame b (dec b).2) (c : Nat) (b1 : BytesBuffer) :
    DecFrame b1 (RespType.decodeTag dec c b1).2 := by
  unfold RespType.decodeTag
  by_cases h43 : c = 43
  · rw [if_pos h43]
    rcases hs : SimpleString.decode b1 with ⟨o, b2⟩
    have hf := SimpleString_decode_frame b1
    rw [hs] at hf
    cases o <;> exact hf
  rw [if_neg h43]
  by_cases h36 : c = 36
  · rw [if_pos h36]
    rcases hs : BulkString.decode b1 with ⟨o, b2⟩
    have hf := BulkString_decode_frame b1
    rw [hs] at hf
    cases o <;> exact hf
  rw [if_neg h36]
  by_cases h58 : c = 58
  · rw [if_pos h58]
    rcases hs : Integer.decode b1 with ⟨o, b2⟩
    have hf := Integer_decode_frame b1
    rw [hs] at hf
    cases o <;> exact hf
  rw [if_neg h58]
  by_cases h35 : c = 35
  · rw [if_pos h35]
    rcases hs : Boolean.decode b1 with ⟨o, b2⟩
    have hf := Boolean_decode_frame b1
    rw [hs] at hf
    cases o <;> exact hf
  rw [if_neg h35]
  by_cases h95 : c = 95
  · rw [if_pos h95]
    rcases hn : Null.decode b1 with ⟨o, b2⟩
    have hf := Null_decode_frame b1
    rw [hn] at hf
    cases o <;> exact hf
  rw [if_neg h95]
  by_cases h37 : c = 37
  · rw [if_pos h37]
    rcases hs : Map.decode dec b1 with ⟨o, b2⟩
    have hf := Map_decode_frame dec hdec b1
    rw [hs] at hf
    cases o <;> exact hf
  rw [if_neg h37]
  by_cases h126 : c = 126
  · rw [if_pos h126]
    rcases hs : Set.decode dec b1 with ⟨o, b2⟩
    have hf := Set_decode_frame dec hdec b1
    rw [hs] at hf
    cases o <;> exact hf
  rw [if_neg h126]
  by_cases h42 : c = 42
  · rw [if_pos h42]
    rcases hs : Array.decode dec b1 with ⟨o, b2⟩
    have hf := Array_decode_frame dec hdec b1
    rw [hs] at hf
    cases o <;> exact hf
  rw [if_neg h42]
  by_cases h45 : c = 45
  · rw [if_pos h45]
    rcases hs : SimpleError.decode b1 with ⟨o, b2⟩
    have hf := SimpleError_decode_frame b1
    rw [hs] at hf
    cases o <;> exact hf
  rw [if_neg h45]
  by_cases h33 : c = 33
  · rw [if_pos h33]
    rcases hs : BulkError.decode b1 with ⟨o, b2⟩
    have hf := BulkError_decode_frame b1
    rw [hs] at hf
    cases o <;> exact hf
  rw [if_neg h33]
  exact DecFrame.refl b1

theorem decodeGo_frame : ∀ (fuel : Nat) (b : BytesBuffer),
    DecFrame b (RespType.decodeGo fuel b).2 := by
  intro fuel
  induction fuel with
  | zero => intro b; exact DecFrame.refl b
  | succ fuel ih =>
      intro b
      rw [RespType.decodeGo]
      by_cases hrem : b.has_remaining = true
      · rw [if_pos hrem]
        have hlt : b.r_pos < b.w_pos := of_decide_eq_true hrem
        have h1 : DecFrame b (BytesBuffer.get_u8 b).2 := by
          refine ⟨rfl, rfl, rfl, Nat.le_succ _, ?_⟩
          show b.r_pos + 1 ≤ max b.r_pos b.w_pos
          omega
        exact DecFrame.comp h1 (decodeTag_frame _ ih _ _)
      · rw [if_neg hrem]
        exact DecFrame.refl b

theorem decode_frame (b : BytesBuffer) : DecFrame b (RespType.decode b).2 :=
  decodeGo_frame _ b

/-! ### C2: aggregate decodes are not rolled back -/

/-- C2 counterexample: decoding `*2\r\n$3\r\nfoo\r\n$3\r\nba` (second
element incomplete) yields `None` with the read cursor left at 17 — just
after the second element's length line — not restored to 0 (the position
before the aggregate's `*` tag byte). -/
theorem c2_counterexample :
    RespType.decode (mkBuf [42, 50, 13, 10, 36, 51, 13, 10, 102, 111, 111, 13, 10,
        36, 51, 13, 10, 98, 97])
      = (none, ⟨17, 19, 19, some 14,
          [42, 50, 13, 10, 36, 51, 13, 10, 102, 111, 111, 13, 10,
            36, 51, 13, 10, 98, 97]⟩) ∧
      (17 : Nat) ≠ 0 := by
  exact ⟨rfl, by decide⟩

/-- C2 amended: if the decode of any child element fails, the whole
aggregate decode reports `None`, but the buffer is NOT restored to the state
before the aggregate's tag byte: whenever `decode` runs on a buffer with at
least one unread byte, the final read cursor is at least one past the
initial cursor (the tag byte stays consumed; only the scan inside the
current length line is ever rolled back), so a subsequent decode attempt
resumes from the partially-consumed position rather than re-parsing from the
tag byte. -/
theorem c2_theorem :
    (∀ b : BytesBuffer, b.r_pos < b.w_pos → (RespType.decode b).1 = none →
        b.r_pos + 1 ≤ (RespType.decode b).2.r_pos) ∧
      (RespType.decode (mkBuf [42, 50, 13, 10, 36, 51, 13, 10, 102, 111, 111, 13, 10,
          36, 51, 13, 10, 98, 97])).1 = none ∧
      (RespType.decode (mkBuf [42, 50, 13, 10, 36, 51, 13, 10, 102, 111, 111, 13, 10,
          36, 51, 13, 10, 98, 97])).2.r_pos = 17 := by
  refine ⟨?_, rfl, rfl⟩
  intro b hlt _
  have hrem : b.has_remaining = true := decide_eq_true hlt
  rw [decode_eq_go, RespType.decodeGo, if_pos hrem]
  have hframe := decodeTag_frame (RespType.decodeGo (b.w_pos - b.r_pos))
    (fun b2 => decodeGo_frame _ b2) (BytesBuffer.get_u8 b).1 (BytesBuffer.get_u8 b).2
  exact hframe.2.2.2.1

/-- C2 witness: the non-restoration clause evaluated on the incomplete bulk
string `$5\r\nhe` (cursor moves from 0 to 4). -/
theorem c2_witness :
    (RespType.decode (mkBuf [36, 53, 13, 10, 104, 101])).1 = none ∧
      0 + 1 ≤ (RespType.decode (mkBuf [36, 53, 13, 10, 104, 101])).2.r_pos := by
  exact ⟨rfl, c2_theorem.1 (mkBuf [36, 53, 13, 10, 104, 101]) (by decide) rfl⟩

/-! ### Successful decodes survive replacing the child decoder by one that
agrees on successes (used to raise the recursion fuel) -/

theorem decodeElemsGo_transfer (dec dec' : BytesBuffer → Option RespType × BytesBuffer)
    (htrans : ∀ b v c, dec b = (some v, c) → dec' b = (some v, c)) :
    ∀ (n : Nat) (b : BytesBuffer) (vs : List RespType) (c : BytesBuffer),
      decodeElemsGo dec n b = (some vs, c) → decodeElemsGo dec' n b = (some vs, c) := by
  intro n
  induction n with
  | zero => intro b vs c h; exact h
  | succ n ih =>
      intro b vs c h
      rw [decodeElemsGo] at h
      rw [decodeElemsGo]
      rcases hd : dec b with ⟨o, b1⟩
      rw [hd] at h
      cases o with
      | none => exact absurd (congrArg Prod.fst h) (by simp)
      | some v =>
          rw [htrans b v b1 hd]
          dsimp only at h ⊢
          rcases he : decodeElemsGo dec n b1 with ⟨o2, b2⟩
          rw [he] at h
          cases o2 with
          | none => exact absurd (congrArg Prod.fst h) (by simp)
          | some vs2 => rw [ih b1 vs2 b2 he]; exact h

theorem decodePairsGo_transfer (dec dec' : BytesBuffer → Option RespType × BytesBuffer)
    (htrans : ∀ b v c, dec b = (some v, c) → dec' b = (some v, c)) :
    ∀ (n : Nat) (b : BytesBuffer) (vs : List (RespType × RespType)) (c : BytesBuffer),
      decodePairsGo dec n b = (some vs, c) → decodePairsGo dec' n b = (some vs, c) := by
  intro n
  induction n with
  | zero => intro b vs c h; exact h
  | succ n ih =>
      intro b vs c h
      rw [decodePairsGo] at h
      rw [decodePairsGo]
      rcases hd : dec b with ⟨o, b1⟩
      rw [hd] at h
      cases o with
      | none => exact absurd (congrArg Prod.fst h) (by simp)
      | some k =>
          rw [htrans b k b1 hd]
          dsimp only at h ⊢
          rcases hd2 : dec b1 with ⟨o2, b2⟩
          rw [hd2] at h
          cases o2 with
          | none => exact absurd (congrArg Prod.fst h) (by simp)
          | some v =>
              rw [htrans b1 v b2 hd2]
              dsimp only at h ⊢
              rcases he : decodePairsGo dec n b2 with ⟨o3, b3⟩
              rw [he] at h
              cases o3 with
              | none => exact absurd (congrArg Prod.fst h) (by simp)
              | some vs3 => rw [ih b2 vs3 b3 he]; exact h

theorem Array_decode_transfer (dec dec' : BytesBuffer → Option RespType × BytesBuffer)
    (htrans : ∀ b v c, dec b = (some v, c) → dec' b = (some v, c))
    (b : BytesBuffer) (vs : List RespType) (c : BytesBuffer)
    (h : Array.decode dec b = (some vs, c)) : Array.decode dec' b = (some vs, c) := by
  rw [Array.decode] at h
  rw [Array.decode]
  rcases hg : BytesBuffer.get_slice_until TERMINATOR b with ⟨o, b1⟩
  rw [hg] at h
  cases o with
  | none => exact absurd (congrArg Prod.fst h) (by simp)
  | some nb =>
      dsimp only at h ⊢
      rcases hp : parseUsize nb with _ | n
      · rw [hp] at h
        dsimp only at h
        exact absurd (congrArg Prod.fst h) (by simp)
      · rw [hp] at h
        exact decodeElemsGo_transfer dec dec' htrans n b1 vs c h

theorem Set_decode_transfer (dec dec' : BytesBuffer → Option RespType × BytesBuffer)
    (htrans : ∀ b v c, dec b = (some v, c) → dec' b = (some v, c))
    (b : BytesBuffer) (vs : List RespType) (c : BytesBuffer)
    (h : Set.decode dec b = (some vs, c)) : Set.decode dec' b = (some vs, c) := by
  rw [Set.decode] at h
  rw [Set.decode]
  rcases hg : BytesBuffer.get_slice_until TERMINATOR b with ⟨o, b1⟩
  rw [hg] at h
  cases o with
  | none => exact absurd (congrArg Prod.fst h) (by simp)
  | some nb =>
      dsimp only at h ⊢
      rcases hp : parseUsize nb with _ | n
      · rw [hp] at h
        dsimp only at h
        exact absurd (congrArg Prod.fst h) (by simp)
      · rw [hp] at h
        exact decodeElemsGo_transfer dec dec' htrans n b1 vs c h

theorem Map_decode_transfer (dec dec' : BytesBuffer → Option RespType × BytesBuffer)
    (htrans : ∀ b v c, dec b = (some v, c) → dec' b = (some v, c))
    (b : BytesBuffer) (vs : List (RespType × RespType)) (c : BytesBuffer)
    (h : Map.decode dec b = (some vs, c)) : Map.decode dec' b = (some vs, c) := by
  rw [Map.decode] at h
  rw [Map.decode]
  rcases hg : BytesBuffer.get_slice_until TERMINATOR b with ⟨o, b1⟩
  rw [hg] at h
  cases o with
  | none => exact absurd (congrArg Prod.fst h) (by simp)
  | some nb =>
      dsimp only at h ⊢
      rcases hp : parseUsize nb with _ | n
      · rw [hp] at h
        dsimp only at h
        exact absurd (congrArg Prod.fst h) (by simp)
      · rw [hp] at h
        exact decodePairsGo_transfer dec dec' htrans n b1 vs c h

theorem decodeTag_transfer (dec dec' : BytesBuffer → Option RespType × BytesBuffer)
    (htrans : ∀ b v c, dec b = (some v, c) → dec' b = (some v, c))
    (byte : Nat) (b1 : BytesBuffer) (v : RespType) (c : BytesBuffer)
    (h : RespType.decodeTag dec byte b1 = (some v, c)) :
    RespType.decodeTag dec' byte b1 = (some v, c) := by
  rw [RespType.decodeTag] at h
  rw [RespType.decodeTag]
  by_cases h43 : byte = 43
  · rw [if_pos h43] at h ⊢; exact h
  rw [if_neg h43] at h ⊢
  by_cases h36 : byte = 36
  · rw [if_pos h36] at h ⊢; exact h
  rw [if_neg h36] at h ⊢
  by_cases h58 : byte = 58
  · rw [if_pos h58] at h ⊢; exact h
  rw [if_neg h58] at h ⊢
  by_cases h35 : byte = 35
  · rw [if_pos h35] at h ⊢; exact h
  rw [if_neg h35] at h ⊢
  by_cases h95 : byte = 95
  · rw [if_pos h95] at h ⊢; exact h
  rw [if_neg h95] at h ⊢
  by_cases h37 : byte = 37
  · rw [if_pos h37] at h ⊢
    rcases hm : Map.decode dec b1 with ⟨o, b2⟩
    rw [hm] at h
    cases o with
    | none => exact absurd (congrArg Prod.fst h) (by simp)
    | some vs => rw [Map_decode_transfer dec dec' htrans b1 vs b2 hm]; exact h
  rw [if_neg h37] at h ⊢
  by_cases h126 : byte = 126
  · rw [if_pos h126] at h ⊢
    rcases hm : Set.decode dec b1 with ⟨o, b2⟩
    rw [hm] at h
    cases o with
    | none => exact absurd (congrArg Prod.fst h) (by simp)
    | some vs => rw [Set_decode_transfer dec dec' htrans b1 vs b2 hm]; exact h
  rw [if_neg h126] at h ⊢
  by_cases h42 : byte = 42
  · rw [if_pos h42] at h ⊢
    rcases hm : Array.decode dec b1 with ⟨o, b2⟩
    rw [hm] at h
    cases o with
    | none => exact absurd (congrArg Prod.fst h) (by simp)
    | some vs => rw [Array_decode_transfer dec dec' htrans b1 vs b2 hm]; exact h
  rw [if_neg h42] at h ⊢
  by_cases h45 : byte = 45
  · rw [if_pos h45] at h ⊢; exact h
  rw [if_neg h45] at h ⊢
  by_cases h33 : byte = 33
  · rw [if_pos h33] at h ⊢; exact h
  rw [if_neg h33] at h ⊢
  exact h

/-- Raising the fuel of a successful decode changes nothing. -/
theorem decodeGo_mono :
    ∀ (f g : Nat), f ≤ g → ∀ (b : BytesBuffer) (v : RespType) (c : BytesBuffer),
      RespType.decodeGo f b = (some v, c) → RespType.decodeGo g b = (some v, c) := by
  intro f
  induction f with
  | zero =>
      intro g _ b v c h
      exact absurd (congrArg Prod.fst h) (by simp [RespType.decodeGo])
  | succ f ih =>
      intro g hg b v c h
      cases g with
      | zero => omega
      | succ g =>
          rw [RespType.decodeGo] at h
          rw [RespType.decodeGo]
          by_cases hrem : b.has_remaining = true
          · rw [if_pos hrem] at h ⊢
            exact decodeTag_transfer (RespType.decodeGo f) (RespType.decodeGo g)
              (fun b2 v2 c2 h2 => ih g (by omega) b2 v2 c2 h2) _ _ v c h
          · rw [if_neg hrem] at h ⊢
            exact h

/-! ### Successful decodes are stable under appending bytes past `w_pos` -/

/-- `b'` holds the same unread prefix as `b` (same read cursor, at least as
many written bytes, agreeing below `b.w_pos`). -/
structure Extends (b b' : BytesBuffer) : Prop where
  r_eq : b'.r_pos = b.r_pos
  mark_eq : b'.mark = b.mark
  r_le_w : b.r_pos ≤ b.w_pos
  w_le : b.w_pos ≤ b'.w_pos
  w_le_len : b.w_pos ≤ b.bytes.length
  take_eq : b'.bytes.take b.w_pos = b.bytes.take b.w_pos

/-- Transplant the cursor and mark of `c` onto the store of `t`. -/
def reframe (c t : BytesBuffer) : BytesBuffer :=
  ⟨c.r_pos, t.w_pos, t.capacity, c.mark, t.bytes⟩

theorem Extends.unread_eq {b b' : BytesBuffer} (h : Extends b b') :
    b'.unread = b.unread ++ (b'.bytes.take b'.w_pos).drop b.w_pos := by
  have hdecomp : b'.bytes.take b'.w_pos
      = b.bytes.take b.w_pos ++ (b'.bytes.take b'.w_pos).drop b.w_pos := by
    conv_lhs => rw [← List.take_append_drop b.w_pos (b'.bytes.take b'.w_pos)]
    rw [List.take_take, Nat.min_eq_left h.w_le, h.take_eq]
  have hr : b.r_pos ≤ (List.take b.w_pos b.bytes).length := by
    rw [List.length_take]
    have := h.w_le_len
    have := h.r_le_w
    omega
  show (b'.bytes.take b'.w_pos).drop b'.r_pos = _
  rw [h.r_eq]
  conv_lhs => rw [hdecomp]
  rw [List.drop_append_of_le_length hr]
  rfl

theorem Extends.getD_eq {b b' : BytesBuffer} (h : Extends b b') (i : Nat)
    (hi : i < b.w_pos) : b'.bytes.getD i 0 = b.bytes.getD i 0 := by
  have hq := congrArg (fun l => l[i]?) h.take_eq
  simp only [List.getElem?_take, if_pos hi] at hq
  rw [List.getD_eq_getElem?_getD, List.getD_eq_getElem?_getD, hq]

theorem listSlice_take_eq (l : List Nat) (w off cnt : Nat) (h : off + cnt ≤ w) :
    BytesBuffer.listSlice (l.take w) off cnt = BytesBuffer.listSlice l off cnt := by
  unfold BytesBuffer.listSlice
  rw [List.drop_take, List.take_take, Nat.min_eq_left (by omega)]

theorem Extends.slice_eq {b b' : BytesBuffer} (h : Extends b b') (off cnt : Nat)
    (hoc : off + cnt ≤ b.w_pos) :
    BytesBuffer.listSlice b'.bytes off cnt = BytesBuffer.listSlice b.bytes off cnt := by
  rw [← listSlice_take_eq b'.bytes b.w_pos off cnt hoc, h.take_eq,
    listSlice_take_eq b.bytes b.w_pos off cnt hoc]

theorem Extends.step {b b' c : BytesBuffer} (hbb : Extends b b') (hf : DecFrame b c) :
    Extends c (reframe c b') := by
  obtain ⟨hbytes, hw, hcap, hr1, hr2⟩ := hf
  refine ⟨rfl, rfl, ?_, ?_, ?_, ?_⟩
  · rw [hw]
    have := hbb.r_le_w
    omega
  · show c.w_pos ≤ b'.w_pos
    rw [hw]
    exact hbb.w_le
  · rw [hw, hbytes]
    exact hbb.w_le_len
  · show b'.bytes.take c.w_pos = c.bytes.take c.w_pos
    rw [hw, hbytes]
    exact hbb.take_eq

theorem gsu_extend {b b' c : BytesBuffer} {sl : List Nat}
    (hx : Extends b b')
    (h : BytesBuffer.get_slice_until TERMINATOR b = (some sl, c)) :
    BytesBuffer.get_slice_until TERMINATOR b' = (some sl, reframe c b') := by
  rw [BytesBuffer.get_slice_until_eq] at h
  rw [BytesBuffer.get_slice_until_eq]
  by_cases hs : (BytesBuffer.scanLoop TERMINATOR b.unread b.r_pos 0 0).2.2
      = TERMINATOR.length
  case neg =>
    rw [if_neg hs] at h
    exact absurd (congrArg Prod.fst h) (by simp)
  rw [if_pos hs] at h
  have hsc : BytesBuffer.scanLoop TERMINATOR b'.unread b'.r_pos 0 0
      = BytesBuffer.scanLoop TERMINATOR b.unread b.r_pos 0 0 := by
    rw [hx.r_eq, hx.unread_eq]
    exact BytesBuffer.scanLoop_extend TERMINATOR _ b.unread b.r_pos 0 0
      (by simp [TERMINATOR]) hs
  rw [hsc, if_pos hs]
  have hb := BytesBuffer.scanLoop_bounds TERMINATOR b.unread b.r_pos 0 0
  have hul : b.unread.length ≤ b.w_pos - b.r_pos := by
    show ((b.bytes.take b.w_pos).drop b.r_pos).length ≤ _
    simp only [List.length_drop, List.length_take]
    omega
  have hslice : BytesBuffer.listSlice b'.bytes b.r_pos
        (BytesBuffer.scanLoop TERMINATOR b.unread b.r_pos 0 0).2.1
      = BytesBuffer.listSlice b.bytes b.r_pos
        (BytesBuffer.scanLoop TERMINATOR b.unread b.r_pos 0 0).2.1 := by
    refine hx.slice_eq _ _ ?_
    have h3 := hb.2.2
    have := hx.r_le_w
    omega
  injection h with h1 h2
  injection h1 with h1
  subst h1
  subst h2
  rw [hx.r_eq, hslice]
  rfl

theorem SimpleString_decode_extend {b b' c : BytesBuffer} {s : List Nat}
    (hx : Extends b b') (h : SimpleString.decode b = (some s, c)) :
    SimpleString.decode b' = (some s, reframe c b') := by
  unfold SimpleString.decode at h ⊢
  rcases hg : BytesBuffer.get_slice_until TERMINATOR b with ⟨o, b1⟩
  rw [hg] at h
  cases o with
  | none => exact absurd (congrArg Prod.fst h) (by simp)
  | some sl =>
      dsimp only at h
      rw [gsu_extend hx hg]
      injection h with h1 h2
      injection h1 with h1
      subst h1
      subst h2
      rfl

theorem SimpleError_decode_extend {b b' c : BytesBuffer} {s : List Nat}
    (hx : Extends b b') (h : SimpleError.decode b = (some s, c)) :
    SimpleError.decode b' = (some s, reframe c b') := by
  unfold SimpleError.decode at h ⊢
  rcases hg : BytesBuffer.get_slice_until TERMINATOR b with ⟨o, b1⟩
  rw [hg] at h
  cases o with
  | none => exact absurd (congrArg Prod.fst h) (by simp)
  | some sl =>
      dsimp only at h
      rw [gsu_extend hx hg]
      injection h with h1 h2
      injection h1 with h1
      subst h1
      subst h2
      rfl

theorem Integer_decode_extend {b b' c : BytesBuffer} {v : Int}
    (hx : Extends b b') (h : Integer.decode b = (some v, c)) :
    Integer.decode b' = (some v, reframe c b') := by
  unfold Integer.decode at h ⊢
  rcases hg : BytesBuffer.get_slice_until TERMINATOR b with ⟨o, b1⟩
  rw [hg] at h
  cases o with
  | none => exact absurd (congrArg Prod.fst h) (by simp)
  | some sl =>
      dsimp only at h
      rw [gsu_extend hx hg]
      dsimp only
      rcases hp : parseIsize sl with _ | n
      · try rw [hp] at h
        try dsimp only at h
        exact absurd (congrArg Prod.fst h) (by simp)
      · try rw [hp] at h
        try dsimp only at h
        try dsimp only
        injection h with h1 h2
        injection h1 with h1
        subst h1
        subst h2
        rfl

theorem BulkString_decode_extend {b b' c : BytesBuffer} {s : List Nat}
    (hx : Extends b b') (h : BulkString.decode b = (some s, c)) :
    BulkString.decode b' = (some s, reframe c b') := by
  unfold BulkString.decode at h ⊢
  rcases hg : BytesBuffer.get_slice_until TERMINATOR b with ⟨o, b1⟩
  rw [hg] at h
  cases o with
  | none => exact absurd (congrArg Prod.fst h) (by simp)
  | some lb =>
      dsimp only at h
      have hf := DecFrame.of_gsu TERMINATOR b
      rw [hg] at hf
      have hx1 : Extends b1 (reframe b1 b') := hx.step hf
      rw [gsu_extend hx hg]
      dsimp only
      rcases hp : parseUsize lb with _ | len
      · try rw [hp] at h
        try dsimp only at h
        exact absurd (congrArg Prod.fst h) (by simp)
      · try rw [hp] at h
        try dsimp only at h
        try dsimp only
        by_cases hat : b1.has_remaining_at_least (len + 2) = true
        case neg =>
          rw [if_neg hat] at h
          exact absurd (congrArg Prod.fst h) (by simp)
        rw [if_pos hat] at h
        have hle : b1.r_pos + (len + 2) ≤ b1.w_pos := of_decide_eq_true hat
        have hat' : (reframe b1 b').has_remaining_at_least (len + 2) = true := by
          refine decide_eq_true ?_
          show b1.r_pos + (len + 2) ≤ b'.w_pos
          have hw1 : b1.w_pos = b.w_pos := hf.2.1
          have := hx.w_le
          omega
        rw [if_pos hat']
        have hsl : BytesBuffer.listSlice b'.bytes b1.r_pos len
            = BytesBuffer.listSlice b1.bytes b1.r_pos len :=
          hx1.slice_eq _ _ (by omega)
        injection h with h1 h2
        injection h1 with h1
        subst h1
        subst h2
        show (some (BytesBuffer.listSlice b'.bytes b1.r_pos len), _) = _
        rw [hsl]
        rfl

theorem BulkError_decode_extend {b b' c : BytesBuffer} {s : List Nat}
    (hx : Extends b b') (h : BulkError.decode b = (some s, c)) :
    BulkError.decode b' = (some s, reframe c b') := by
  unfold BulkError.decode at h ⊢
  rcases hg : BytesBuffer.get_slice_until TERMINATOR b with ⟨o, b1⟩
  rw [hg] at h
  cases o with
  | none => exact absurd (congrArg Prod.fst h) (by simp)
  | some lb =>
      dsimp only at h
      have hf := DecFrame.of_gsu TERMINATOR b
      rw [hg] at hf
      have hx1 : Extends b1 (reframe b1 b') := hx.step hf
      rw [gsu_extend hx hg]
      dsimp only
      rcases hp : parseUsize lb with _ | len
      · try rw [hp] at h
        try dsimp only at h
        exact absurd (congrArg Prod.fst h) (by simp)
      · try rw [hp] at h
        try dsimp only at h
        try dsimp only
        by_cases hat : b1.has_remaining_at_least (len + 2) = true
        case neg =>
          rw [if_neg hat] at h
          exact absurd (congrArg Prod.fst h) (by simp)
        rw [if_pos hat] at h
        have hle : b1.r_pos + (len + 2) ≤ b1.w_pos := of_decide_eq_true hat
        have hat' : (reframe b1 b').has_remaining_at_least (len + 2) = true := by
          refine decide_eq_true ?_
          show b1.r_pos + (len + 2) ≤ b'.w_pos
          have hw1 : b1.w_pos = b.w_pos := hf.2.1
          have := hx.w_le
          omega
        rw [if_pos hat']
        have hsl : BytesBuffer.listSlice b'.bytes b1.r_pos len
            = BytesBuffer.listSlice b1.bytes b1.r_pos len :=
          hx1.slice_eq _ _ (by omega)
        injection h with h1 h2
        injection h1 with h1
        subst h1
        subst h2
        show (some (BytesBuffer.listSlice b'.bytes b1.r_pos len), _) = _
        rw [hsl]
        rfl

theorem Boolean_decode_extend {b b' c : BytesBuffer} {v : Bool}
    (hx : Extends b b') (h : Boolean.decode b = (some v, c)) :
    Boolean.decode b' = (some v, reframe c b') := by
  unfold Boolean.decode at h ⊢
  by_cases hat : b.has_remaining_at_least 3 = true
  case neg =>
    rw [if_neg hat] at h
    exact absurd (congrArg Prod.fst h) (by simp)
  rw [if_pos hat] at h
  have hle : b.r_pos + 3 ≤ b.w_pos := of_decide_eq_true hat
  have hat' : b'.has_remaining_at_least 3 = true := by
    refine decide_eq_true ?_
    show b'.r_pos + 3 ≤ b'.w_pos
    rw [hx.r_eq]
    have := hx.w_le
    omega
  rw [if_pos hat']
  have hbyte : b'.bytes.getD b'.r_pos 0 = b.bytes.getD b.r_pos 0 := by
    rw [hx.r_eq]
    exact hx.getD_eq b.r_pos (by omega)
  injection h with h1 h2
  injection h1 with h1
  subst h1
  subst h2
  show (some (decide (b'.bytes.getD b'.r_pos 0 = 116)),
        BytesBuffer.mk (b'.r_pos + 1 + 1 + 1) b'.w_pos b'.capacity b'.mark b'.bytes)
      = (some (decide (b.bytes.getD b.r_pos 0 = 116)),
        BytesBuffer.mk (b.r_pos + 1 + 1 + 1) b'.w_pos b'.capacity b.mark b'.bytes)
  rw [hbyte, hx.r_eq, hx.mark_eq]

theorem Null_decode_extend {b b' c : BytesBuffer} {v : Unit}
    (hx : Extends b b') (h : Null.decode b = (some v, c)) :
    Null.decode b' = (some v, reframe c b') := by
  unfold Null.decode at h ⊢
  by_cases hat : b.has_remaining_at_least 2 = true
  case neg =>
    rw [if_neg hat] at h
    exact absurd (congrArg Prod.fst h) (by simp)
  rw [if_pos hat] at h
  have hle : b.r_pos + 2 ≤ b.w_pos := of_decide_eq_true hat
  have hat' : b'.has_remaining_at_least 2 = true := by
    refine decide_eq_true ?_
    show b'.r_pos + 2 ≤ b'.w_pos
    rw [hx.r_eq]
    have := hx.w_le
    omega
  rw [if_pos hat']
  injection h with h1 h2
  subst h2
  cases v
  show (some (), BytesBuffer.mk (b'.r_pos + 1 + 1) b'.w_pos b'.capacity b'.mark b'.bytes)
      = (some (), BytesBuffer.mk (b.r_pos + 1 + 1) b'.w_pos b'.capacity b.mark b'.bytes)
  rw [hx.r_eq, hx.mark_eq]

theorem decodeElemsGo_extend (dec : BytesBuffer → Option RespType × BytesBuffer)
    (hframe : ∀ b, DecFrame b (dec b).2)
    (hext : ∀ {b b' : BytesBuffer} {v : RespType} {c : BytesBuffer}, Extends b b' →
      dec b = (some v, c) → dec b' = (some v, reframe c b')) :
    ∀ (n : Nat) {b b' : BytesBuffer} (_hx : Extends b b')
      {vs : List RespType} {c : BytesBuffer},
      decodeElemsGo dec n b = (some vs, c) →
      decodeElemsGo dec n b' = (some vs, reframe c b') := by
  intro n
  induction n with
  | zero =>
      intro b b' hx vs c h
      injection h with h1 h2
      injection h1 with h1
      subst h1
      subst h2
      have h1 : b'.r_pos = b.r_pos := hx.r_eq
      have h2 : b'.mark = b.mark := hx.mark_eq
      show (some [], BytesBuffer.mk b'.r_pos b'.w_pos b'.capacity b'.mark b'.bytes)
          = (some [], BytesBuffer.mk b.r_pos b'.w_pos b'.capacity b.mark b'.bytes)
      rw [h1, h2]
  | succ n ih =>
      intro b b' hx vs c h
      rw [decodeElemsGo] at h
      rw [decodeElemsGo]
      rcases hd : dec b with ⟨o, b1⟩
      rw [hd] at h
      cases o with
      | none => exact absurd (congrArg Prod.fst h) (by simp)
      | some v =>
          rw [hext hx hd]
          dsimp only at h ⊢
          have hx1 : Extends b1 (reframe b1 b') := by
            have hf := hframe b
            rw [hd] at hf
            exact hx.step hf
          rcases he : decodeElemsGo dec n b1 with ⟨o2, b2⟩
          rw [he] at h
          cases o2 with
          | none => exact absurd (congrArg Prod.fst h) (by simp)
          | some vs2 =>
              rw [ih hx1 he]
              injection h with h1 h2
              injection h1 with h1
              subst h1
              subst h2
              rfl

theorem decodePairsGo_extend (dec : BytesBuffer → Option RespType × BytesBuffer)
    (hframe : ∀ b, DecFrame b (dec b).2)
    (hext : ∀ {b b' : BytesBuffer} {v : RespType} {c : BytesBuffer}, Extends b b' →
      dec b = (some v, c) → dec b' = (some v, reframe c b')) :
    ∀ (n : Nat) {b b' : BytesBuffer} (_hx : Extends b b')
      {vs : List (RespType × RespType)} {c : BytesBuffer},
      decodePairsGo dec n b = (some vs, c) →
      decodePairsGo dec n b' = (some vs, reframe c b') := by
  intro n
  induction n with
  | zero =>
      intro b b' hx vs c h
      injection h with h1 h2
      injection h1 with h1
      subst h1
      subst h2
      have h1 : b'.r_pos = b.r_pos := hx.r_eq
      have h2 : b'.mark = b.mark := hx.mark_eq
      show (some [], BytesBuffer.mk b'.r_pos b'.w_pos b'.capacity b'.mark b'.bytes)
          = (some [], BytesBuffer.mk b.r_pos b'.w_pos b'.capacity b.mark b'.bytes)
      rw [h1, h2]
  | succ n ih =>
      intro b b' hx vs c h
      rw [decodePairsGo] at h
      rw [decodePairsGo]
      rcases hd : dec b with ⟨o, b1⟩
      rw [hd] at h
      cases o with
      | none => exact absurd (congrArg Prod.fst h) (by simp)
      | some k =>
          rw [hext hx hd]
          dsimp only at h ⊢
          have hx1 : Extends b1 (reframe b1 b') := by
            have hf := hframe b
            rw [hd] at hf
            exact hx.step hf
          rcases hd2 : dec b1 with ⟨o2, b2⟩
          rw [hd2] at h
          cases o2 with
          | none => exact absurd (congrArg Prod.fst h) (by simp)
          | some v =>
              rw [hext hx1 hd2]
              dsimp only at h ⊢
              have hx2 : Extends b2 (reframe b2 (reframe b1 b')) := by
                have hf := hframe b1
                rw [hd2] at hf
                exact hx1.step hf
              rcases he : decodePairsGo dec n b2 with ⟨o3, b3⟩
              rw [he] at h
              cases o3 with
              | none => exact absurd (congrArg Prod.fst h) (by simp)
              | some vs3 =>
                  rw [ih hx2 he]
                  injection h with h1 h2
                  injection h1 with h1
                  subst h1
                  subst h2
                  rfl

theorem Array_decode_extend (dec : BytesBuffer → Option RespType × BytesBuffer)
    (hframe : ∀ b, DecFrame b (dec b).2)
    (hext : ∀ {b b' : BytesBuffer} {v : RespType} {c : BytesBuffer}, Extends b b' →
      dec b = (some v, c) → dec b' = (some v, reframe c b'))
    {b b' : BytesBuffer} (hx : Extends b b') {vs : List RespType} {c : BytesBuffer}
    (h : Array.decode dec b = (some vs, c)) :
    Array.decode dec b' = (some vs, reframe c b') := by
  rw [Array.decode] at h
  rw [Array.decode]
  rcases hg : BytesBuffer.get_slice_until TERMINATOR b with ⟨o, b1⟩
  rw [hg] at h
  cases o with
  | none => exact absurd (congrArg Prod.fst h) (by simp)
  | some nb =>
      dsimp only at h
      have hf := DecFrame.of_gsu TERMINATOR b
      rw [hg] at hf
      have hx1 : Extends b1 (reframe b1 b') := hx.step hf
      rw [gsu_extend hx hg]
      dsimp only
      rcases hp : parseUsize nb with _ | n
      · try rw [hp] at h
        try dsimp only at h
        exact absurd (congrArg Prod.fst h) (by simp)
      · try rw [hp] at h
        try dsimp only at h
        try dsimp only
        exact decodeElemsGo_extend dec hframe hext n hx1 h

theorem Set_decode_extend (dec : BytesBuffer → Option RespType × BytesBuffer)
    (hframe : ∀ b, DecFrame b (dec b).2)
    (hext : ∀ {b b' : BytesBuffer} {v : RespType} {c : BytesBuffer}, Extends b b' →
      dec b = (some v, c) → dec b' = (some v, reframe c b'))
    {b b' : BytesBuffer} (hx : Extends b b') {vs : List RespType} {c : BytesBuffer}
    (h : Set.decode dec b = (some vs, c)) :
    Set.decode dec b' = (some vs, reframe c b') := by
  rw [Set.decode] at h
  rw [Set.decode]
  rcases hg : BytesBuffer.get_slice_until TERMINATOR b with ⟨o, b1⟩
  rw [hg] at h
  cases o with
  | none => exact absurd (congrArg Prod.fst h) (by simp)
  | some nb =>
      dsimp only at h
      have hf := DecFrame.of_gsu TERMINATOR b
      rw [hg] at hf
      have hx1 : Extends b1 (reframe b1 b') := hx.step hf
      rw [gsu_extend hx hg]
      dsimp only
      rcases hp : parseUsize nb with _ | n
      · try rw [hp] at h
        try dsimp only at h
        exact absurd (congrArg Prod.fst h) (by simp)
      · try rw [hp] at h
        try dsimp only at h
        try dsimp only
        exact decodeElemsGo_extend dec hframe hext n hx1 h

theorem Map_decode_extend (dec : BytesBuffer → Option RespType × BytesBuffer)
    (hframe : ∀ b, DecFrame b (dec b).2)
    (hext : ∀ {b b' : BytesBuffer} {v : RespType} {c : BytesBuffer}, Extends b b' →
      dec b = (some v, c) → dec b' = (some v, reframe c b'))
    {b b' : BytesBuffer} (hx : Extends b b')
    {vs : List (RespType × RespType)} {c : BytesBuffer}
    (h : Map.decode dec b = (some vs, c)) :
    Map.decode dec b' = (some vs, reframe c b') := by
  rw [Map.decode] at h
  rw [Map.decode]
  rcases hg : BytesBuffer.get_slice_until TERMINATOR b with ⟨o, b1⟩
  rw [hg] at h
  cases o with
  | none => exact absurd (congrArg Prod.fst h) (by simp)
  | some nb =>
      dsimp only at h
      have hf := DecFrame.of_gsu TERMINATOR b
      rw [hg] at hf
      have hx1 : Extends b1 (reframe b1 b') := hx.step hf
      rw [gsu_extend hx hg]
      dsimp only
      rcases hp : parseUsize nb with _ | n
      · try rw [hp] at h
        try dsimp only at h
        exact absurd (congrArg Prod.fst h) (by simp)
      · try rw [hp] at h
        try dsimp only at h
        try dsimp only
        exact decodePairsGo_extend dec hframe hext n hx1 h

theorem decodeTag_extend (dec : BytesBuffer → Option RespType × BytesBuffer)
    (hframe : ∀ b, DecFrame b (dec b).2)
    (hext : ∀ {b b' : BytesBuffer} {v : RespType} {c : BytesBuffer}, Extends b b' →
      dec b = (some v, c) → dec b' = (some v, reframe c b'))
    {b1 b1' : BytesBuffer} (hx : Extends b1 b1') (byte : Nat)
    {v : RespType} {c : BytesBuffer}
    (h : RespType.decodeTag dec byte b1 = (some v, c)) :
    RespType.decodeTag dec byte b1' = (some v, reframe c b1') := by
  rw [RespType.decodeTag] at h
  rw [RespType.decodeTag]
  by_cases h43 : byte = 43
  · rw [if_pos h43] at h ⊢
    rcases hs : SimpleString.decode b1 with ⟨o, b2⟩
    rw [hs] at h
    cases o with
    | none => exact absurd (congrArg Prod.fst h) (by simp)
    | some s =>
        rw [SimpleString_decode_extend hx hs]
        injection h with h1 h2
        injection h1 with h1
        subst h1
        subst h2
        rfl
  rw [if_neg h43] at h ⊢
  by_cases h36 : byte = 36
  · rw [if_pos h36] at h ⊢
    rcases hs : BulkString.decode b1 with ⟨o, b2⟩
    rw [hs] at h
    cases o with
    | none => exact absurd (congrArg Prod.fst h) (by simp)
    | some s =>
        rw [BulkString_decode_extend hx hs]
        injection h with h1 h2
        injection h1 with h1
        subst h1
        subst h2
        rfl
  rw [if_neg h36] at h ⊢
  by_cases h58 : byte = 58
  · rw [if_pos h58] at h ⊢
    rcases hs : Integer.decode b1 with ⟨o, b2⟩
    rw [hs] at h
    cases o with
    | none => exact absurd (congrArg Prod.fst h) (by simp)
    | some s =>
        rw [Integer_decode_extend hx hs]
        injection h with h1 h2
        injection h1 with h1
        subst h1
        subst h2
        rfl
  rw [if_neg h58] at h ⊢
  by_cases h35 : byte = 35
  · rw [if_pos h35] at h ⊢
    rcases hs : Boolean.decode b1 with ⟨o, b2⟩
    rw [hs] at h
    cases o with
    | none => exact absurd (congrArg Prod.fst h) (by simp)
    | some s =>
        rw [Boolean_decode_extend hx hs]
        injection h with h1 h2
        injection h1 with h1
        subst h1
        subst h2
        rfl
  rw [if_neg h35] at h ⊢
  by_cases h95 : byte = 95
  · rw [if_pos h95] at h ⊢
    rcases hs : Null.decode b1 with ⟨o, b2⟩
    rw [hs] at h
    cases o with
    | none => exact absurd (congrArg Prod.fst h) (by simp)
    | some s =>
        rw [Null_decode_extend hx hs]
        injection h with h1 h2
        injection h1 with h1
        subst h1
        subst h2
        rfl
  rw [if_neg h95] at h ⊢
  by_cases h37 : byte = 37
  · rw [if_pos h37] at h ⊢
    rcases hs : Map.decode dec b1 with ⟨o, b2⟩
    rw [hs] at h
    cases o with
    | none => exact absurd (congrArg Prod.fst h) (by simp)
    | some s =>
        rw [Map_decode_extend dec hframe hext hx hs]
        injection h with h1 h2
        injection h1 with h1
        subst h1
        subst h2
        rfl
  rw [if_neg h37] at h ⊢
  by_cases h126 : byte = 126
  · rw [if_pos h126] at h ⊢
    rcases hs : Set.decode dec b1 with ⟨o, b2⟩
    rw [hs] at h
    cases o with
    | none => exact absurd (congrArg Prod.fst h) (by simp)
    | some s =>
        rw [Set_decode_extend dec hframe hext hx hs]
        injection h with h1 h2
        injection h1 with h1
        subst h1
        subst h2
        rfl
  rw [if_neg h126] at h ⊢
  by_cases h42 : byte = 42
  · rw [if_pos h42] at h ⊢
    rcases hs : Array.decode dec b1 with ⟨o, b2⟩
    rw [hs] at h
    cases o with
    | none => exact absurd (congrArg Prod.fst h) (by simp)
    | some s =>
        rw [Array_decode_extend dec hframe hext hx hs]
        injection h with h1 h2
        injection h1 with h1
        subst h1
        subst h2
        rfl
  rw [if_neg h42] at h ⊢
  by_cases h45 : byte = 45
  · rw [if_pos h45] at h ⊢
    rcases hs : SimpleError.decode b1 with ⟨o, b2⟩
    rw [hs] at h
    cases o with
    | none => exact absurd (congrArg Prod.fst h) (by simp)
    | some s =>
        rw [SimpleError_decode_extend hx hs]
        injection h with h1 h2
        injection h1 with h1
        subst h1
        subst h2
        rfl
  rw [if_neg h45] at h ⊢
  by_cases h33 : byte = 33
  · rw [if_pos h33] at h ⊢
    rcases hs : BulkError.decode b1 with ⟨o, b2⟩
    rw [hs] at h
    cases o with
    | none => exact absurd (congrArg Prod.fst h) (by simp)
    | some s =>
        rw [BulkError_decode_extend hx hs]
        injection h with h1 h2
        injection h1 with h1
        subst h1
        subst h2
        rfl
  rw [if_neg h33] at h ⊢
  exact absurd (congrArg Prod.fst h) (by simp)

/-- A successful decode only depends on the unread prefix: appending bytes
past `w_pos` (or enlarging the free tail) yields the same value with the
same cursor motion. -/
theorem decodeGo_extend : ∀ (f : Nat) {b b' : BytesBuffer}, Extends b b' →
    ∀ {v : RespType} {c : BytesBuffer}, RespType.decodeGo f b = (some v, c) →
      RespType.decodeGo f b' = (some v, reframe c b') := by
  intro f
  induction f with
  | zero =>
      intro b b' hx v c h
      exact absurd (congrArg Prod.fst h) (by simp [RespType.decodeGo])
  | succ f ih =>
      intro b b' hx v c h
      rw [RespType.decodeGo] at h
      rw [RespType.decodeGo]
      by_cases hrem : b.has_remaining = true
      case neg =>
        rw [if_neg hrem] at h
        exact absurd (congrArg Prod.fst h) (by simp)
      rw [if_pos hrem] at h
      have hlt : b.r_pos < b.w_pos := of_decide_eq_true hrem
      have hrem' : b'.has_remaining = true := by
        refine decide_eq_true ?_
        show b'.r_pos < b'.w_pos
        rw [hx.r_eq]
        have := hx.w_le
        omega
      rw [if_pos hrem']
      have hbyte : (BytesBuffer.get_u8 b').1 = (BytesBuffer.get_u8 b).1 := by
        show b'.bytes.getD b'.r_pos 0 = b.bytes.getD b.r_pos 0
        rw [hx.r_eq]
        exact hx.getD_eq b.r_pos hlt
      have hx1 : Extends (BytesBuffer.get_u8 b).2 (BytesBuffer.get_u8 b').2 := by
        refine ⟨?_, ?_, ?_, ?_, ?_, ?_⟩
        · show b'.r_pos + 1 = b.r_pos + 1
          rw [hx.r_eq]
        · exact hx.mark_eq
        · show b.r_pos + 1 ≤ b.w_pos
          omega
        · exact hx.w_le
        · exact hx.w_le_len
        · exact hx.take_eq
      rw [hbyte]
      exact decodeTag_extend (RespType.decodeGo f) (decodeGo_frame f)
        (fun hx2 h2 => ih hx2 h2) hx1 _ h

/-! ### C1: strict prefixes of valid encodings -/

/-- C1 counterexample: `$3\r\nabc\r\n` is a valid encoding (it decodes
completely, consuming all 9 bytes); its strict 6-byte prefix `$3\r\nab`
decodes to `None` as required, but the read cursor is left at 4 (after the
consumed tag byte and length line), not restored to 0. -/
theorem c1_counterexample :
    RespType.decode (mkBuf [36, 51, 13, 10, 97, 98, 99, 13, 10])
        = (some (.bulkStrings [97, 98, 99]),
            ⟨9, 9, 9, some 1, [36, 51, 13, 10, 97, 98, 99, 13, 10]⟩) ∧
      [36, 51, 13, 10, 97, 98, 99, 13, 10].take 6 = [36, 51, 13, 10, 97, 98] ∧
      (RespType.decode (mkBuf [36, 51, 13, 10, 97, 98])).1 = none ∧
      (RespType.decode (mkBuf [36, 51, 13, 10, 97, 98])).2.r_pos = 4 ∧
      (4 : Nat) ≠ 0 :=
  ⟨rfl, rfl, rfl, rfl, by decide⟩

/-- C1 amended: for every byte sequence that is a valid RESP encoding of a
value (decoding it consumes the whole buffer and yields the value) and
every strict prefix of it, decoding a buffer holding exactly that prefix
yields `None` — never a completed value; the read cursor, however, may be
left advanced past consumed bytes (it is not restored to its pre-decode
position). -/
theorem c1_theorem :
    ∀ (d : List Nat) (v : RespType) (c : BytesBuffer),
      RespType.decode (mkBuf d) = (some v, c) → c.r_pos = d.length →
      ∀ k, k < d.length → (RespType.decode (mkBuf (d.take k))).1 = none := by
  intro d v c hdec hall k hk
  rcases hsm : RespType.decode (mkBuf (d.take k)) with ⟨o, csm⟩
  cases o with
  | none => rfl
  | some u =>
      exfalso
      have hlen : (d.take k).length = k := by
        rw [List.length_take]
        omega
      have hsm' : RespType.decodeGo (k + 1) (mkBuf (d.take k)) = (some u, csm) := by
        rw [← hsm, decode_eq_go]
        have harg : (mkBuf (d.take k)).w_pos - (mkBuf (d.take k)).r_pos + 1 = k + 1 := by
          show (d.take k).length - 0 + 1 = k + 1
          omega
        rw [harg]
      have hfr := decodeGo_frame (k + 1) (mkBuf (d.take k))
      rw [hsm'] at hfr
      have hmx : max (mkBuf (d.take k)).r_pos (mkBuf (d.take k)).w_pos = k := by
        show max 0 (d.take k).length = k
        rw [hlen]
        omega
      have h5 := hfr.2.2.2.2
      rw [hmx] at h5
      have hx : Extends (mkBuf (d.take k)) (mkBuf d) := by
        refine ⟨rfl, rfl, ?_, ?_, ?_, ?_⟩
        · show (0 : Nat) ≤ (d.take k).length
          exact Nat.zero_le _
        · show (d.take k).length ≤ d.length
          omega
        · show (d.take k).length ≤ (d.take k).length
          exact le_refl _
        · show d.take (d.take k).length = (d.take k).take (d.take k).length
          rw [hlen, List.take_take, Nat.min_self]
      have hext2 := decodeGo_extend (k + 1) hx hsm'
      have hmono := decodeGo_mono (k + 1) (d.length + 1) (by omega) _ _ _ hext2
      have hfull : RespType.decodeGo (d.length + 1) (mkBuf d) = (some v, c) := by
        rw [← hdec, decode_eq_go]
        have harg : (mkBuf d).w_pos - (mkBuf d).r_pos + 1 = d.length + 1 := by
          show d.length - 0 + 1 = d.length + 1
          omega
        rw [harg]
      rw [hfull] at hmono
      injection hmono with hm1 hm2
      have hcr : c.r_pos = csm.r_pos := by
        rw [hm2]
        rfl
      have h5b : csm.r_pos ≤ k := h5
      omega

/-- C1 witness: the amended statement evaluated on the valid encoding
`+OK\r\n` and its 3-byte strict prefix. -/
theorem c1_witness :
    RespType.decode (mkBuf [43, 79, 75, 13, 10])
        = (some (.simpleStrings [79, 75]), ⟨5, 5, 5, some 1, [43, 79, 75, 13, 10]⟩) ∧
      (RespType.decode (mkBuf ([43, 79, 75, 13, 10].take 3))).1 = none := by
  refine ⟨rfl, ?_⟩
  exact c1_theorem [43, 79, 75, 13, 10] (.simpleStrings [79, 75])
    ⟨5, 5, 5, some 1, [43, 79, 75, 13, 10]⟩ rfl rfl 3 (by decide)

/-! ### Decimal printing and parsing round-trip -/

theorem natDigitsAux_digits :
    ∀ (f n : Nat), ∀ c ∈ natDigitsAux f n, 48 ≤ c ∧ c ≤ 57 := by
  intro f
  induction f with
  | zero =>
      intro n c hc
      cases n <;> simp [natDigitsAux] at hc
  | succ f ih =>
      intro n c hc
      cases n with
      | zero => simp [natDigitsAux] at hc
      | succ n =>
          rw [natDigitsAux] at hc
          rcases List.mem_append.1 hc with h | h
          · exact ih _ c h
          · have : c = (n + 1) % 10 + 48 := by simpa using h
            subst this
            have : (n + 1) % 10 < 10 := Nat.mod_lt _ (by omega)
            omega

theorem natDigitsAux_ne_nil (f n : Nat) (h1 : 1 ≤ n) (h2 : n ≤ f) :
    natDigitsAux f n ≠ [] := by
  cases f with
  | zero => omega
  | succ f =>
      cases n with
      | zero => omega
      | succ n =>
          rw [natDigitsAux]
          simp

theorem parseDigitsAux_append :
    ∀ (l : List Nat) (rest : List Nat) (acc : Nat), (∀ c ∈ l, 48 ≤ c ∧ c ≤ 57) →
      parseDigitsAux (l ++ rest) acc
        = parseDigitsAux rest (l.foldl (fun a c => a * 10 + (c - 48)) acc) := by
  intro l
  induction l with
  | nil => intro rest acc _; rfl
  | cons c t ih =>
      intro rest acc hd
      have hc := hd c (List.mem_cons_self c t)
      rw [List.cons_append, parseDigitsAux, if_pos hc, List.foldl_cons]
      exact ih rest _ (fun d hdm => hd d (List.mem_cons_of_mem c hdm))

theorem foldl_natDigitsAux :
    ∀ (f n acc : Nat), 1 ≤ n → n ≤ f →
      (natDigitsAux f n).foldl (fun a c => a * 10 + (c - 48)) acc
        = acc * 10 ^ (natDigitsAux f n).length + n := by
  intro f
  induction f with
  | zero => intro n acc h1 h2; omega
  | succ f ih =>
      intro n acc h1 h2
      cases n with
      | zero => omega
      | succ n =>
          rw [natDigitsAux, List.foldl_append, List.length_append]
          by_cases hq : (n + 1) / 10 = 0
          · rw [hq]
            have hz : natDigitsAux f 0 = [] := by cases f <;> rfl
            rw [hz]
            simp only [List.foldl_nil, List.foldl_cons, List.length_nil, List.length_cons,
              List.length_nil]
            have hmod : (n + 1) % 10 = n + 1 := by omega
            have hd48 : (n + 1) % 10 + 48 - 48 = (n + 1) % 10 := by omega
            rw [hd48, hmod]
            norm_num
          · have hq1 : 1 ≤ (n + 1) / 10 := by omega
            have hq2 : (n + 1) / 10 ≤ f := by omega
            rw [ih ((n + 1) / 10) acc hq1 hq2]
            simp only [List.foldl_cons, List.foldl_nil, List.length_cons, List.length_nil]
            have hd48 : (n + 1) % 10 + 48 - 48 = (n + 1) % 10 := by omega
            rw [hd48]
            have hr : (acc * 10 ^ (natDigitsAux f ((n + 1) / 10)).length + (n + 1) / 10) * 10
                  + (n + 1) % 10
                = acc * 10 ^ ((natDigitsAux f ((n + 1) / 10)).length + (0 + 1))
                  + ((n + 1) / 10 * 10 + (n + 1) % 10) := by
              rw [pow_succ]
              ring
            rw [hr]
            have hdm : (n + 1) / 10 * 10 + (n + 1) % 10 = n + 1 := by omega
            rw [hdm]

theorem parseDigits_natDigits (n : Nat) :
    parseDigits (natDigits n) = some n := by
  by_cases h0 : n = 0
  · subst h0
    rfl
  · unfold natDigits
    rw [if_neg h0]
    rcases hne : natDigitsAux n n with _ | ⟨c, t⟩
    · exact absurd hne (natDigitsAux_ne_nil n n (by omega) (le_refl n))
    · rw [show parseDigits (c :: t) = parseDigitsAux (c :: t) 0 from rfl]
      have hap : parseDigitsAux ((c :: t) ++ []) 0
          = parseDigitsAux [] ((c :: t).foldl (fun a d => a * 10 + (d - 48)) 0) := by
        refine parseDigitsAux_append (c :: t) [] 0 ?_
        intro d hd
        exact natDigitsAux_digits n n d (hne ▸ hd)
      rw [List.append_nil] at hap
      rw [hap, ← hne, foldl_natDigitsAux n n 0 (by omega) (le_refl n)]
      simp [parseDigitsAux]

theorem natDigits_head_ne_43 (n : Nat) :
    (natDigits n).head? ≠ some 43 := by
  unfold natDigits
  by_cases h0 : n = 0
  · rw [if_pos h0]
    simp
  · rw [if_neg h0]
    rcases hne : natDigitsAux n n with _ | ⟨c, t⟩
    · simp
    · have hc := natDigitsAux_digits n n c (hne ▸ List.mem_cons_self c t)
      simp only [List.head?_cons]
      intro hcon
      have : c = 43 := by injection hcon
      omega

theorem parseUsize_natDigits (n : Nat) (hn : n < 2 ^ 64) :
    parseUsize (natDigits n) = some n := by
  unfold parseUsize
  rw [if_neg (natDigits_head_ne_43 n), parseDigits_natDigits n]
  simp only [if_pos hn]

/-! ### What encoding writes -/

/-- One encoding step from `b` to `b'` appended exactly `out` to the unread
region, keeping cursors and mark sane. -/
def EncStep (b b' : BytesBuffer) (out : List Nat) : Prop :=
  b'.r_pos = b.r_pos ∧ b'.mark = b.mark ∧ b'.capacity = b.capacity ∧
    b'.bytes.length = b'.capacity ∧ b'.w_pos = b.w_pos + out.length ∧
    b'.w_pos ≤ b'.capacity ∧ b'.unread = b.unread ++ out

theorem EncStep.compose {b b1 b2 : BytesBuffer} {o1 o2 : List Nat}
    (h1 : EncStep b b1 o1) (h2 : EncStep b1 b2 o2) : EncStep b b2 (o1 ++ o2) := by
  obtain ⟨r1, m1, c1, l1, w1, wc1, u1⟩ := h1
  obtain ⟨r2, m2, c2, l2, w2, wc2, u2⟩ := h2
  refine ⟨r2.trans r1, m2.trans m1, c2.trans c1, l2, ?_, wc2, ?_⟩
  · rw [w2, w1, List.length_append]
    omega
  · rw [u2, u1, List.append_assoc]

theorem EncStep.nil {b : BytesBuffer} (hlen : b.bytes.length = b.capacity)
    (hwc : b.w_pos ≤ b.capacity) : EncStep b b [] := by
  refine ⟨rfl, rfl, rfl, hlen, ?_, hwc, ?_⟩
  · rw [List.length_nil, Nat.add_zero]
  · rw [List.append_nil]

theorem EncStep.r_le_w {b b' : BytesBuffer} {o : List Nat} (h : EncStep b b' o)
    (hrw : b.r_pos ≤ b.w_pos) : b'.r_pos ≤ b'.w_pos := by
  obtain ⟨r1, -, -, -, w1, -, -⟩ := h
  omega

theorem writeAt_length : ∀ (sl l : List Nat) (i : Nat),
    (BytesBuffer.writeAt l i sl).length = l.length := by
  intro sl
  induction sl with
  | nil => intro l i; rfl
  | cons c cs ih =>
      intro l i
      rw [BytesBuffer.writeAt, ih, List.length_set]

theorem take_set_succ (l : List Nat) (w c : Nat) (h : w < l.length) :
    (l.set w c).take (w + 1) = l.take w ++ [c] := by
  rw [List.set_eq_take_cons_drop c h, List.take_append_eq_append_take, List.take_take]
  have hl : (l.take w).length = w := by
    rw [List.length_take]
    omega
  rw [hl, Nat.min_eq_right (by omega), show w + 1 - w = 1 from by omega]
  rfl

theorem writeAt_take : ∀ (sl l : List Nat) (w : Nat), w + sl.length ≤ l.length →
    (BytesBuffer.writeAt l w sl).take (w + sl.length) = l.take w ++ sl := by
  intro sl
  induction sl with
  | nil =>
      intro l w h
      simp [BytesBuffer.writeAt]
  | cons c cs ih =>
      intro l w h
      rw [BytesBuffer.writeAt]
      have hlc : (c :: cs).length = cs.length + 1 := rfl
      have harith : w + (c :: cs).length = (w + 1) + cs.length := by omega
      rw [harith]
      have hlen : (l.set w c).length = l.length := List.length_set l w c
      rw [ih (l.set w c) (w + 1) (by omega)]
      rw [take_set_succ l w c (by omega), List.append_assoc]
      rfl

theorem put_u8_spec {b b' : BytesBuffer} {c : Nat}
    (hlen : b.bytes.length = b.capacity) (hrw : b.r_pos ≤ b.w_pos)
    (h : BytesBuffer.put_u8 c b = some b') : EncStep b b' [c] := by
  unfold BytesBuffer.put_u8 at h
  by_cases hcap : b.w_pos < b.capacity
  case neg => rw [if_neg hcap] at h; cases h
  rw [if_pos hcap] at h
  injection h with h
  subst h
  refine ⟨rfl, rfl, rfl, ?_, rfl, ?_, ?_⟩
  · show (b.bytes.set b.w_pos c).length = b.capacity
    rw [List.length_set]
    exact hlen
  · show b.w_pos + 1 ≤ b.capacity
    omega
  · show ((b.bytes.set b.w_pos c).take (b.w_pos + 1)).drop b.r_pos = _
    rw [take_set_succ b.bytes b.w_pos c (by omega),
      List.drop_append_of_le_length (by rw [List.length_take]; omega)]
    rfl

theorem put_u8_slice_spec {b b' : BytesBuffer} {sl : List Nat}
    (hlen : b.bytes.length = b.capacity) (hrw : b.r_pos ≤ b.w_pos)
    (h : BytesBuffer.put_u8_slice sl b = some b') : EncStep b b' sl := by
  unfold BytesBuffer.put_u8_slice at h
  by_cases hcap : b.w_pos + sl.length ≤ b.capacity
  case neg => rw [if_neg hcap] at h; cases h
  rw [if_pos hcap] at h
  injection h with h
  subst h
  refine ⟨rfl, rfl, rfl, ?_, rfl, ?_, ?_⟩
  · show (BytesBuffer.writeAt b.bytes b.w_pos sl).length = b.capacity
    rw [writeAt_length]
    exact hlen
  · exact hcap
  · show ((BytesBuffer.writeAt b.bytes b.w_pos sl).take (b.w_pos + sl.length)).drop b.r_pos
        = _
    rw [writeAt_take sl b.bytes b.w_pos (by omega),
      List.drop_append_of_le_length (by rw [List.length_take]; omega)]
    rfl

theorem BulkString_encode_spec {s : List Nat} {b b' : BytesBuffer}
    (hlen : b.bytes.length = b.capacity) (hrw : b.r_pos ≤ b.w_pos)
    (h : BulkString.encode s b = some b') :
    EncStep b b' (respEncBytes (.bulkStrings s)) := by
  unfold BulkString.encode at h
  rcases hp1 : BytesBuffer.put_u8 36 b with _ | b1
  case none => rw [hp1] at h; cases h
  rw [hp1, Option.some_bind] at h
  have e1 := put_u8_spec hlen hrw hp1
  rcases hp2 : BytesBuffer.put_u8_slice (natDigits s.length) b1 with _ | b2
  case none => rw [hp2, Option.none_bind] at h; cases h
  rw [hp2, Option.some_bind] at h
  have e2 := put_u8_slice_spec e1.2.2.2.1 (e1.r_le_w hrw) hp2
  rcases hp3 : BytesBuffer.put_u8_slice TERMINATOR b2 with _ | b3
  case none => rw [hp3, Option.none_bind] at h; cases h
  rw [hp3, Option.some_bind] at h
  have e3 := put_u8_slice_spec e2.2.2.2.1 (e2.r_le_w (e1.r_le_w hrw)) hp3
  rcases hp4 : BytesBuffer.put_u8_slice s b3 with _ | b4
  case none => rw [hp4, Option.none_bind] at h; cases h
  rw [hp4, Option.some_bind] at h
  have e4 := put_u8_slice_spec e3.2.2.2.1 (e3.r_le_w (e2.r_le_w (e1.r_le_w hrw))) hp4
  have e5 := put_u8_slice_spec e4.2.2.2.1
    (e4.r_le_w (e3.r_le_w (e2.r_le_w (e1.r_le_w hrw)))) h
  have := (((e1.compose e2).compose e3).compose e4).compose e5
  have hout : (([36] ++ natDigits s.length ++ TERMINATOR ++ s) ++ TERMINATOR : List Nat)
      = respEncBytes (.bulkStrings s) := by
    rw [respEncBytes]
    simp [List.append_assoc]
  rw [← hout]
  exact this

theorem encode_noop (v : RespType) (b : BytesBuffer)
    (h : v.isOutboundEncodable = false) :
    RespType.encode v b = some b ∧ respEncBytes v = [] := by
  cases v <;> simp [RespType.isOutboundEncodable] at h ⊢ <;>
    exact ⟨by rw [RespType.encode] <;> simp, by rw [respEncBytes] <;> simp⟩

theorem encode_spec_fuel : ∀ (fuel : Nat) (v : RespType), sizeOf v ≤ fuel →
    ∀ (b b' : BytesBuffer), b.bytes.length = b.capacity → b.r_pos ≤ b.w_pos →
    b.w_pos ≤ b.capacity → RespType.encode v b = some b' →
    EncStep b b' (respEncBytes v) := by
  intro fuel
  induction fuel with
  | zero =>
      intro v hv
      exfalso
      cases v <;> simp at hv
  | succ f ih =>
      intro v hv b b' hlen hrw hwc h
      by_cases hout : v.isOutboundEncodable = false
      case pos =>
        obtain ⟨hnoop, hbytes⟩ := encode_noop v b hout
        rw [hnoop] at h
        injection h with h
        subst h
        rw [hbytes]
        exact EncStep.nil hlen hwc
      cases v with
      | simpleStrings s => exact absurd rfl hout
      | simpleErrors s => exact absurd rfl hout
      | integers n => exact absurd rfl hout
      | booleans fl => exact absurd rfl hout
      | nulls => exact absurd rfl hout
      | bulkErrors s => exact absurd rfl hout
      | maps ps => exact absurd rfl hout
      | sets xs => exact absurd rfl hout
      | bulkStrings s =>
          rw [RespType.encode] at h
          exact BulkString_encode_spec hlen hrw h
      | arrays l =>
          have hsl : sizeOf l ≤ f := by
            have hs := RespType.arrays.sizeOf_spec l
            omega
          have hxs : ∀ x ∈ l, sizeOf x ≤ f := by
            intro x hx
            have := List.sizeOf_lt_of_mem hx
            omega
          rw [RespType.encode] at h
          rcases hp1 : BytesBuffer.put_u8 42 b with _ | b1
          next => rw [hp1, Option.none_bind] at h; cases h
          rw [hp1, Option.some_bind] at h
          have e1 := put_u8_spec hlen hrw hp1
          rcases hp2 : BytesBuffer.put_u8_slice (natDigits l.length) b1 with _ | b2
          next => rw [hp2, Option.none_bind] at h; cases h
          rw [hp2, Option.some_bind] at h
          have e2 := put_u8_slice_spec e1.2.2.2.1 (e1.r_le_w hrw) hp2
          rcases hp3 : BytesBuffer.put_u8_slice TERMINATOR b2 with _ | b3
          next => rw [hp3, Option.none_bind] at h; cases h
          rw [hp3, Option.some_bind] at h
          have e3 := put_u8_slice_spec e2.2.2.2.1 (e2.r_le_w (e1.r_le_w hrw)) hp3
          have hlist : ∀ (vs : List RespType), (∀ x ∈ vs, sizeOf x ≤ f) →
              ∀ (c c' : BytesBuffer), c.bytes.length = c.capacity →
              c.r_pos ≤ c.w_pos → c.w_pos ≤ c.capacity →
              RespType.encodeList vs c = some c' →
              EncStep c c' (respEncBytesList vs) := by
            intro vs
            induction vs with
            | nil =>
                intro _ c c' hl hr hw hh
                rw [RespType.encodeList] at hh
                injection hh with hh
                subst hh
                rw [respEncBytesList]
                exact EncStep.nil hl hw
            | cons x xs ihl =>
                intro hx c c' hl hr hw hh
                rw [RespType.encodeList] at hh
                rcases hq : RespType.encode x c with _ | c1
                next => rw [hq, Option.none_bind] at hh; cases hh
                rw [hq, Option.some_bind] at hh
                have ex := ih x (hx x (by simp)) c c1 hl hr hw hq
                have exs := ihl (fun y hy => hx y (by simp [hy])) c1 c'
                  ex.2.2.2.1 (ex.r_le_w hr) ex.2.2.2.2.2.1 hh
                rw [respEncBytesList]
                exact ex.compose exs
          have e4 := hlist l hxs b3 b' e3.2.2.2.1
            (e3.r_le_w (e2.r_le_w (e1.r_le_w hrw))) e3.2.2.2.2.2.1 h
          have := (((e1.compose e2).compose e3).compose e4)
          have hout2 : (([42] ++ natDigits l.length ++ TERMINATOR)
                ++ respEncBytesList l : List Nat)
              = respEncBytes (.arrays l) := by
            rw [respEncBytes]
            simp [List.append_assoc]
          rw [← hout2]
          exact this

/-- The overall encode specification: a successful `encode` into a sane buffer
appends exactly `respEncBytes v` to the unread region, preserving the read
cursor, the mark, the capacity and the backing-store length. -/
theorem encode_spec {v : RespType} {b b' : BytesBuffer}
    (hlen : b.bytes.length = b.capacity) (hrw : b.r_pos ≤ b.w_pos)
    (hwc : b.w_pos ≤ b.capacity) (h : RespType.encode v b = some b') :
    EncStep b b' (respEncBytes v) :=
  encode_spec_fuel (sizeOf v) v (Nat.le_refl _) b b' hlen hrw hwc h

/-! ### Decoding what was encoded -/

theorem natDigits_digits (n : Nat) : ∀ c ∈ natDigits n, 48 ≤ c ∧ c ≤ 57 := by
  unfold natDigits
  by_cases h0 : n = 0
  · rw [if_pos h0]
    intro c hc
    have : c = 48 := by simpa using hc
    omega
  · rw [if_neg h0]
    exact natDigitsAux_digits n n

theorem unread_set_rm (b : BytesBuffer) (x : Nat) (m : Option Nat) :
    BytesBuffer.unread { b with r_pos := x, mark := m }
      = (b.bytes.take b.w_pos).drop x := rfl

theorem decodeTag_36 (dec : BytesBuffer → Option RespType × BytesBuffer)
    (b1 : BytesBuffer) :
    RespType.decodeTag dec 36 b1
      = (match BulkString.decode b1 with
         | (some v, b2) => (some (RespType.bulkStrings v), b2)
         | (none, b2) => (none, b2)) := rfl

theorem decodeTag_42 (dec : BytesBuffer → Option RespType × BytesBuffer)
    (b1 : BytesBuffer) :
    RespType.decodeTag dec 42 b1
      = (match Array.decode dec b1 with
         | (some v, b2) => (some (RespType.arrays v), b2)
         | (none, b2) => (none, b2)) := rfl

/-- `BulkString::decode` on a buffer whose unread region starts with the bulk
encoding of `s` (after the `$` tag): it succeeds with `s`, advancing the
cursor past the encoding and leaving the mark at the entry cursor. -/
theorem BulkString.decode_of_encoded {b1 : BytesBuffer} {s rest : List Nat}
    (hshape : b1.unread = natDigits s.length ++ 13 :: 10 :: (s ++ 13 :: 10 :: rest))
    (hs : s.length < 2 ^ 64) :
    BulkString.decode b1
      = (some s,
          { b1 with
              r_pos := b1.r_pos + (natDigits s.length).length + 2 + s.length + 2,
              mark := some b1.r_pos }) := by
  have hclean : ∀ c ∈ natDigits s.length, c ≠ 13 := by
    intro c hc
    have := natDigits_digits s.length c hc
    omega
  have hgsu := BytesBuffer.get_slice_until_clean hshape hclean
  have hshape2 : BytesBuffer.unread b1
      = (natDigits s.length ++ [13, 10]) ++ (s ++ 13 :: 10 :: rest) := by
    rw [hshape, List.append_assoc]
    rfl
  have hdrop := BytesBuffer.unread_drop_append hshape2
  have hlend : (natDigits s.length ++ [13, 10]).length
      = (natDigits s.length).length + 2 := by
    rw [List.length_append]
    rfl
  rw [hlend] at hdrop
  have hu2 : BytesBuffer.unread
      { b1 with r_pos := b1.r_pos + (natDigits s.length).length + 2,
                mark := some b1.r_pos }
      = s ++ 13 :: 10 :: rest := by
    rw [unread_set_rm]
    rw [show b1.r_pos + (natDigits s.length).length + 2
        = b1.r_pos + ((natDigits s.length).length + 2) from by omega]
    exact hdrop
  have hu2' : BytesBuffer.unread
      { b1 with r_pos := b1.r_pos + (natDigits s.length).length + 2,
                mark := some b1.r_pos }
      = (s ++ [13, 10]) ++ rest := by
    rw [hu2, List.append_assoc]
    rfl
  have hle := BytesBuffer.r_add_le_w_of_unread hu2' (by simp)
  have hlens : (s ++ [13, 10]).length = s.length + 2 := by
    rw [List.length_append]
    rfl
  rw [hlens] at hle
  unfold BulkString.decode
  rw [hgsu]
  dsimp only
  rw [parseUsize_natDigits s.length hs]
  dsimp only
  have hat : BytesBuffer.has_remaining_at_least
      { b1 with r_pos := b1.r_pos + (natDigits s.length).length + 2,
                mark := some b1.r_pos } (s.length + 2) = true := by
    exact decide_eq_true (by dsimp only at hle ⊢; omega)
  rw [if_pos hat]
  have hslice : BytesBuffer.listSlice b1.bytes
      (b1.r_pos + (natDigits s.length).length + 2) s.length = s := by
    have := BytesBuffer.take_drop_of_unread_append hu2
    exact this
  dsimp only [BytesBuffer.get_slice, BytesBuffer.get_u8]
  rw [hslice]

theorem respEncBytes_bulk_length (s : List Nat) :
    (respEncBytes (.bulkStrings s)).length
      = (natDigits s.length).length + s.length + 5 := by
  rw [respEncBytes]
  simp [TERMINATOR]
  omega

/-- One full decode step on a buffer whose unread region starts with the
complete encoding of a bulk string: the value round-trips, the cursor moves
exactly past the encoding, and the mark is left after the tag byte. -/
theorem decodeGo_bulk (fuel : Nat) {b : BytesBuffer} {s rest : List Nat}
    (hshape : b.unread = respEncBytes (.bulkStrings s) ++ rest)
    (hs : s.length < 2 ^ 64) :
    RespType.decodeGo (fuel + 1) b
      = (some (.bulkStrings s),
          { b with r_pos := b.r_pos + (respEncBytes (.bulkStrings s)).length,
                   mark := some (b.r_pos + 1) }) := by
  have hshape1 : b.unread
      = 36 :: (natDigits s.length ++ 13 :: 10 :: (s ++ 13 :: 10 :: rest)) := by
    rw [hshape, respEncBytes]
    simp [TERMINATOR, List.append_assoc]
  have hunf := decodeGo_succ_of_cons fuel hshape1
  have hu1 : BytesBuffer.unread { b with r_pos := b.r_pos + 1 }
      = natDigits s.length ++ 13 :: 10 :: (s ++ 13 :: 10 :: rest) :=
    (BytesBuffer.getD_of_unread_cons hshape1).2.2
  have hbulk := BulkString.decode_of_encoded hu1 hs
  rw [hunf, decodeTag_36, hbulk]
  dsimp only
  rw [show b.r_pos + (respEncBytes (.bulkStrings s)).length
      = b.r_pos + 1 + (natDigits s.length).length + 2 + s.length + 2 from by
    rw [respEncBytes_bulk_length]; omega]

/-- The element loop of `Array::decode` on a buffer holding the concatenated
encodings of a list of bulk strings: every element round-trips and the cursor
ends exactly past the concatenation (the final mark depends on the last
element, hence the existential). -/
theorem decodeElemsGo_encoded (fuel : Nat) :
    ∀ (l : List RespType) (b : BytesBuffer) (rest : List Nat),
      (∀ x ∈ l, ∃ s, x = RespType.bulkStrings s ∧ s.length < 2 ^ 64) →
      b.unread = respEncBytesList l ++ rest →
      ∃ m : Option Nat,
        decodeElemsGo (RespType.decodeGo (fuel + 1)) l.length b
          = (some l,
              { b with r_pos := b.r_pos + (respEncBytesList l).length,
                       mark := m }) := by
  intro l
  induction l with
  | nil =>
      intro b rest _ _
      exact ⟨b.mark, rfl⟩
  | cons x xs ih =>
      intro b rest hall hshape
      obtain ⟨s, hx, hslen⟩ := hall x (List.mem_cons_self x xs)
      subst hx
      have hshape1 : b.unread
          = respEncBytes (.bulkStrings s) ++ (respEncBytesList xs ++ rest) := by
        rw [hshape, respEncBytesList, List.append_assoc]
      have hbulk := decodeGo_bulk fuel hshape1 hslen
      have hu1 : BytesBuffer.unread
          { b with r_pos := b.r_pos + (respEncBytes (.bulkStrings s)).length,
                   mark := some (b.r_pos + 1) }
          = respEncBytesList xs ++ rest := by
        rw [unread_set_rm]
        exact BytesBuffer.unread_drop_append hshape1
      obtain ⟨m, hrec⟩ := ih _ rest (fun y hy => hall y (List.mem_cons_of_mem _ hy)) hu1
      refine ⟨m, ?_⟩
      show decodeElemsGo (RespType.decodeGo (fuel + 1)) (xs.length + 1) b = _
      rw [decodeElemsGo, hbulk]
      dsimp only
      rw [hrec]
      dsimp only
      rw [show b.r_pos + (respEncBytesList (RespType.bulkStrings s :: xs)).length
          = b.r_pos + (respEncBytes (.bulkStrings s)).length
            + (respEncBytesList xs).length from by
        rw [respEncBytesList, List.length_append]; omega]

theorem respEncBytes_arrays_length (l : List RespType) :
    (respEncBytes (.arrays l)).length
      = (natDigits l.length).length + (respEncBytesList l).length + 3 := by
  rw [respEncBytes]
  simp [TERMINATOR]
  omega

/-- A full decode step on a buffer whose unread region starts with the
complete encoding of an array of bulk strings: the array round-trips and the
cursor moves exactly past the encoding. -/
theorem decodeGo_array_bulks (fuel : Nat) {b : BytesBuffer} {l : List RespType}
    {rest : List Nat}
    (hall : ∀ x ∈ l, ∃ s, x = RespType.bulkStrings s ∧ s.length < 2 ^ 64)
    (hcount : l.length < 2 ^ 64)
    (hshape : b.unread = respEncBytes (.arrays l) ++ rest) :
    ∃ m : Option Nat,
      RespType.decodeGo (fuel + 2) b
        = (some (.arrays l),
            { b with r_pos := b.r_pos + (respEncBytes (.arrays l)).length,
                     mark := m }) := by
  have hshape1 : b.unread
      = 42 :: (natDigits l.length ++ 13 :: 10 :: (respEncBytesList l ++ rest)) := by
    rw [hshape, respEncBytes]
    simp [TERMINATOR, List.append_assoc]
  have hunf := decodeGo_succ_of_cons (fuel + 1) hshape1
  have hu1 : BytesBuffer.unread { b with r_pos := b.r_pos + 1 }
      = natDigits l.length ++ 13 :: 10 :: (respEncBytesList l ++ rest) :=
    (BytesBuffer.getD_of_unread_cons hshape1).2.2
  have hclean : ∀ c ∈ natDigits l.length, c ≠ 13 := by
    intro c hc
    have := natDigits_digits l.length c hc
    omega
  have hgsu := BytesBuffer.get_slice_until_clean hu1 hclean
  have hu1' : BytesBuffer.unread { b with r_pos := b.r_pos + 1 }
      = (natDigits l.length ++ [13, 10]) ++ (respEncBytesList l ++ rest) := by
    rw [hu1, List.append_assoc]
    rfl
  have hdrop := BytesBuffer.unread_drop_append hu1'
  have hlend : (natDigits l.length ++ [13, 10]).length
      = (natDigits l.length).length + 2 := by
    rw [List.length_append]
    rfl
  rw [hlend] at hdrop
  have hu2 : BytesBuffer.unread
      { b with r_pos := b.r_pos + 1 + (natDigits l.length).length + 2,
               mark := some (b.r_pos + 1) }
      = respEncBytesList l ++ rest := by
    rw [unread_set_rm]
    rw [show b.r_pos + 1 + (natDigits l.length).length + 2
        = b.r_pos + 1 + ((natDigits l.length).length + 2) from by omega]
    exact hdrop
  obtain ⟨m, helems⟩ := decodeElemsGo_encoded fuel l _ rest hall hu2
  refine ⟨m, ?_⟩
  rw [hunf, decodeTag_42]
  have harr : Array.decode (RespType.decodeGo (fuel + 1)) { b with r_pos := b.r_pos + 1 }
      = (some l,
          { b with r_pos := b.r_pos + (respEncBytes (.arrays l)).length, mark := m }) := by
    unfold Array.decode
    rw [hgsu]
    dsimp only
    rw [parseUsize_natDigits l.length hcount]
    dsimp only
    rw [helems]
    rw [show b.r_pos + (respEncBytes (.arrays l)).length
        = b.r_pos + 1 + (natDigits l.length).length + 2
          + (respEncBytesList l).length from by
      rw [respEncBytes_arrays_length]; omega]
  rw [harr]

theorem respEncBytes_mem_le : ∀ (l : List RespType), ∀ x ∈ l,
    (respEncBytes x).length ≤ (respEncBytesList l).length := by
  intro l
  induction l with
  | nil =>
      intro x hx
      simp at hx
  | cons y ys ih =>
      intro x hx
      rw [respEncBytesList, List.length_append]
      rcases List.mem_cons.1 hx with h | h
      · subst h
        omega
      · have := ih x h
        omega

theorem respEncBytesList_count_le : ∀ (l : List RespType),
    (∀ x ∈ l, ∃ s, x = RespType.bulkStrings s) →
    l.length ≤ (respEncBytesList l).length := by
  intro l
  induction l with
  | nil =>
      intro _
      simp [respEncBytesList]
  | cons y ys ih =>
      intro hall
      obtain ⟨s, hy⟩ := hall y (List.mem_cons_self y ys)
      subst hy
      rw [respEncBytesList, List.length_append, List.length_cons]
      have h1 := ih (fun x hx => hall x (List.mem_cons_of_mem _ hx))
      have h2 := respEncBytes_bulk_length s
      omega

/-- C5: round-trip for the shapes the client sends.  Encoding a `BulkString`,
or an `Array` all of whose elements are `BulkStrings`, into a fresh buffer of
any capacity below `2^64` (the Rust `usize` range) and then decoding that
buffer yields exactly the original value; the `some` hypothesis records that
the encoding fit in the buffer (`put_u8` panics otherwise). -/
theorem c5_theorem :
    (∀ (s : List Nat) (cap : Nat) (b' : BytesBuffer), cap < 2 ^ 64 →
        RespType.encode (.bulkStrings s) (BytesBuffer.new cap) = some b' →
        (RespType.decode b').1 = some (.bulkStrings s)) ∧
    (∀ (l : List RespType) (cap : Nat) (b' : BytesBuffer), cap < 2 ^ 64 →
        (∀ x ∈ l, ∃ s, x = RespType.bulkStrings s) →
        RespType.encode (.arrays l) (BytesBuffer.new cap) = some b' →
        (RespType.decode b').1 = some (.arrays l)) := by
  constructor
  · intro s cap b' hcap henc
    obtain ⟨hr, hm, hc, hbl, hw, hwc, hu⟩ :=
      encode_spec (by simp [BytesBuffer.new]) (Nat.le_refl 0) (Nat.zero_le cap) henc
    have hu' : b'.unread = respEncBytes (.bulkStrings s) ++ [] := by
      rw [hu]
      simp [BytesBuffer.unread, BytesBuffer.new]
    have h1 := respEncBytes_bulk_length s
    have h2 : (BytesBuffer.new cap).w_pos = 0 := rfl
    have h3 : (BytesBuffer.new cap).capacity = cap := rfl
    have hslen : s.length < 2 ^ 64 := by omega
    rw [decode_eq_go, decodeGo_bulk (b'.w_pos - b'.r_pos) hu' hslen]
  · intro l cap b' hcap hall henc
    obtain ⟨hr, hm, hc, hbl, hw, hwc, hu⟩ :=
      encode_spec (by simp [BytesBuffer.new]) (Nat.le_refl 0) (Nat.zero_le cap) henc
    have hu' : b'.unread = respEncBytes (.arrays l) ++ [] := by
      rw [hu]
      simp [BytesBuffer.unread, BytesBuffer.new]
    have h2 : (BytesBuffer.new cap).w_pos = 0 := rfl
    have h3 : (BytesBuffer.new cap).capacity = cap := rfl
    have h4 : (BytesBuffer.new cap).r_pos = 0 := rfl
    have harl := respEncBytes_arrays_length l
    have hcount : l.length < 2 ^ 64 := by
      have := respEncBytesList_count_le l hall
      omega
    have hall' : ∀ x ∈ l, ∃ s, x = RespType.bulkStrings s ∧ s.length < 2 ^ 64 := by
      intro x hx
      obtain ⟨s, hxs⟩ := hall x hx
      refine ⟨s, hxs, ?_⟩
      have hmemle := respEncBytes_mem_le l x hx
      subst hxs
      have hbll := respEncBytes_bulk_length s
      omega
    have hw1 : 1 ≤ b'.w_pos - b'.r_pos := by omega
    obtain ⟨m, hdec⟩ := decodeGo_array_bulks (b'.w_pos - b'.r_pos - 1) hall' hcount hu'
    rw [decode_eq_go,
      show b'.w_pos - b'.r_pos + 1 = b'.w_pos - b'.r_pos - 1 + 2 from by omega, hdec]

/-- C5 witness: the round-trip evaluated on the bulk string `hi` in a fresh
16-byte buffer and on the one-element array `[hi]` in a fresh 32-byte
buffer. -/
theorem c5_witness :
    (RespType.decode ⟨0, 8, 16, none,
        [36, 50, 13, 10, 104, 105, 13, 10, 0, 0, 0, 0, 0, 0, 0, 0]⟩).1
        = some (.bulkStrings [104, 105]) ∧
    (RespType.decode ⟨0, 12, 32, none,
        [42, 49, 13, 10, 36, 50, 13, 10, 104, 105, 13, 10, 0, 0, 0, 0, 0, 0, 0,
          0, 0, 0, 0, 0, 0, 0, 0, 0, 0, 0, 0, 0]⟩).1
        = some (.arrays [.bulkStrings [104, 105]]) := by
  constructor
  · refine c5_theorem.1 [104, 105] 16 _ (by norm_num) ?_
    simp [RespType.encode, BulkString.encode, BytesBuffer.put_u8,
      BytesBuffer.put_u8_slice, BytesBuffer.writeAt, BytesBuffer.new,
      natDigits, natDigitsAux, TERMINATOR, List.replicate]
  · refine c5_theorem.2 [.bulkStrings [104, 105]] 32 _ (by norm_num)
      (fun x hx => ⟨[104, 105], by simpa using hx⟩) ?_
    simp [RespType.encode, RespType.encodeList, BulkString.encode,
      BytesBuffer.put_u8, BytesBuffer.put_u8_slice, BytesBuffer.writeAt,
      BytesBuffer.new, natDigits, natDigitsAux, TERMINATOR, List.replicate]

end RRedis
